import Mathlib

/-!
# gobundler: a shallow embedding of `main.go`

The program flattens a Go package and the dependencies it classifies as
internal into one source file.  This development embeds the classifier, the
loader wrapper, the collision resolver, the renamer, the reference rewriter,
the dependency walker and the comment-preserving emitter as Lean functions and
states the properties of the written specification over them.

Conventions of the embedding.

* Go strings are Lean `String`s.  The functions of package `strings` that the
  program calls work on bytes; the separators the program looks for (`/`, `.`,
  `github.com`, `@@@.`) are ASCII, and on valid UTF-8 a byte-level search for an
  ASCII pattern and a character-level search agree, so they are written over
  the character list.
* `*ast.Ident` nodes are identified by a number; the mutable field `Name` of
  all identifiers of a package is the table `names`.
* Go maps are association lists: the list order stands for the (unspecified)
  iteration order of the map, and a well-formed map has no repeated key.
* `token.Pos` is a natural number.
-/

namespace Gobundler

/-! ## Package `strings` / `bytes` -/

/-- Go `strings.HasPrefix`. -/
def hasPrefix (s pre : String) : Bool := pre.data.isPrefixOf s.data

/-- Search loop of `strings.Contains` on character lists. -/
def containsChars (sub : List Char) : List Char → Bool
  | [] => sub.isPrefixOf []
  | c :: cs => sub.isPrefixOf (c :: cs) || containsChars sub cs

/-- Go `strings.Contains`. -/
def contains (s sub : String) : Bool := containsChars sub.data s.data

/-- Search loop of `strings.Index`: `k` is the offset of the current suffix. -/
def indexChars (sub : List Char) : List Char → Nat → Int
  | [], k => if sub.isPrefixOf [] then (k : Int) else -1
  | c :: cs, k => if sub.isPrefixOf (c :: cs) then (k : Int) else indexChars sub cs (k + 1)

/-- Go `strings.Index`: offset of the first occurrence of `sub`, or `-1`. -/
def index (s sub : String) : Int := indexChars sub.data s.data 0

/-- Loop of `bytes.Replace(s, old, new, -1)` for a non-empty `old`: `skip` counts
the characters of a matched occurrence that are still to be dropped. -/
def replaceChars (old new : List Char) : Nat → List Char → List Char
  | _, [] => []
  | skip + 1, _ :: cs => replaceChars old new skip cs
  | 0, c :: cs =>
    if old.isPrefixOf (c :: cs) then new ++ replaceChars old new (old.length - 1) cs
    else c :: replaceChars old new 0 cs

/-- Go `bytes.Replace(s, old, new, -1)` for a non-empty `old`. -/
def bytesReplace (s old new : String) : String :=
  ⟨replaceChars old.data new.data 0 s.data⟩

/-- Order of `sort.Strings`: lexicographic on the character codes. -/
def strLe : List Char → List Char → Bool
  | [], _ => true
  | _ :: _, [] => false
  | a :: as, b :: bs => a.toNat < b.toNat || (a.toNat == b.toNat && strLe as bs)

/-- Insertion of one key into a sorted list. -/
def insertSorted (k : String) : List String → List String
  | [] => [k]
  | x :: xs => if strLe k.data x.data then k :: x :: xs else x :: insertSorted k xs

/-- Go `sort.Strings`. -/
def sortStrings : List String → List String
  | [] => []
  | k :: ks => insertSorted k (sortStrings ks)

/-! ## Command-line configuration -/

/-- The flag `rootModule`, and the predicate `isTorbitDependency`, which
`recurseDependencyTree` calls but whose declaration is not part of `main.go`;
it is a parameter of the embedding. -/
structure Config where
  rootModule : String
  isTorbitDependency : String → Bool

/-- Source `isSharedDependency`. -/
def isSharedDependency (cfg : Config) (pkgName : String) : Bool :=
  hasPrefix pkgName cfg.rootModule

/-- Source `isVendorDependency`. -/
def isVendorDependency (pkgName : String) : Bool :=
  contains pkgName "github.com"

/-- Source `isStandardImportPath`. -/
def isStandardImportPath (path : String) : Bool :=
  let i := index path "/"
  let i := if i < 0 then (path.data.length : Int) else i
  let elem : String := ⟨path.data.take i.toNat⟩
  !contains elem "."

/-! ## Syntax trees and type information -/

/-- Identity of an `*ast.Ident` node. -/
abbrev Ident := Nat

/-- The dynamic type of a `types.Object`, as far as the program inspects it. -/
inductive ObjKind where
  | typeName
  | pkgName (imported : String)
  | other
  deriving DecidableEq, Repr

/-- A `types.Object`: its identity, its name `Name()` and its kind. -/
structure Object where
  id : Nat
  name : String
  kind : ObjKind
  deriving DecidableEq, Repr

/-- A syntax tree as `ast.Inspect` and the printer see it. -/
inductive Node where
  | ident (id : Ident)
  | selector (x : Node) (sel : Ident)
  | lit (text : String)
  | seq (l r : Node)
  deriving DecidableEq, Repr

/-- An `*ast.CommentGroup`: `Pos()`, `End()` and the text of its comments. -/
structure CommentGroup where
  pos : Nat
  endPos : Nat
  list : List String
  deriving DecidableEq, Repr

/-- An `*ast.ImportSpec`: `End()` and its line comment. -/
structure ImportSpec where
  endPos : Nat
  comment : Option CommentGroup
  deriving DecidableEq, Repr

/-- The last `ast.Spec` of a general declaration, by dynamic type. -/
inductive Spec where
  | importSpec
  | valueSpec (comment : Option CommentGroup)
  | typeSpec (comment : Option CommentGroup)
  deriving DecidableEq, Repr

/-- An `ast.Decl`.  `isImport` is `Tok == token.IMPORT`; `body` is the tree the
printer renders. -/
inductive Decl where
  | genDecl (isImport : Bool) (doc : Option CommentGroup) (specs : List Spec)
      (pos endPos : Nat) (body : Node)
  | funcDecl (doc : Option CommentGroup) (pos endPos : Nat) (body : Node)
  | badDecl (pos endPos : Nat) (body : Node)
  deriving DecidableEq, Repr

/-- An `*ast.File` with the line table of its `token.File`. -/
structure File where
  package : Nat
  imports : List ImportSpec
  decls : List Decl
  comments : List CommentGroup
  line : Nat → Nat

/-- A `*packages.Package`. -/
structure Package where
  name : String
  imports : List String
  syntax_ : List File
  names : Ident → String
  defs : List (Ident × Option Object)
  uses : List (Ident × Object)
  scope : List Object

/-- What stops a run without a result. -/
inductive Fault where
  | indexOutOfRange
  | outOfFuel
  deriving DecidableEq, Repr

/-! ## Module loader -/

/-- Result of `packages.Load`: the packages and whether an error was reported. -/
structure LoadResult where
  pkgs : List Package
  err : Bool

/-- Source `loadFilesOfPackage`: the error is discarded and `pkgs[0]` returned;
indexing an empty slice panics. -/
def loadFilesOfPackage (load : String → LoadResult) (src : String) : Except Fault Package :=
  match (load src).pkgs with
  | [] => .error .indexOutOfRange
  | p :: _ => .ok p

/-! ## Output assembler -/

/-- Source `handlePackageName`. -/
def handlePackageName (importsOut : String) (name : String) : String :=
  importsOut ++ "package " ++ name ++ "\n\n"

/-- Loop of `handleImports` over the keys of `pkgStd` in iteration order. -/
def writeImportLines (out : String) : List String → String
  | [] => out
  | p :: ps => writeImportLines (out ++ "\"" ++ p ++ "\"\n") ps

/-- Source `handleImports`; `pkgStd` lists the keys of the map in the order the
`range` statement yields them. -/
def handleImports (importsOut : String) (pkgStd : List String) : String :=
  writeImportLines (importsOut ++ "import (\n") pkgStd ++ ")\n\n"

/-! ## Mutable identifier names and map lookups -/

/-- Assignment `id.Name = v`. -/
def setName (names : Ident → String) (id : Ident) (v : String) : Ident → String :=
  fun j => if j = id then v else names j

/-- Lookup in `TypesInfo.Uses`. -/
def lookupUse (uses : List (Ident × Object)) (id : Ident) : Option Object :=
  match uses with
  | [] => none
  | (k, o) :: rest => if k = id then some o else lookupUse rest id

/-- Lookup in `TypesInfo.Defs`; a key may be bound to the nil object. -/
def lookupDef (defs : List (Ident × Option Object)) (id : Ident) : Option Object :=
  match defs with
  | [] => none
  | (k, o) :: rest => if k = id then o else lookupDef rest id

/-- Assignment `m[k] = true` on a `map[string]bool` used as a set. -/
def setInsert (k : String) (m : List String) : List String :=
  if k ∈ m then m else m ++ [k]

/-! ## Symbol renamer -/

/-- First loop of `renamePackageDeclarations`, over `TypesInfo.Defs`. -/
def renameDefs (objsToUpdate : List Object) (pre : String) :
    List (Ident × Option Object) → (Ident → String) → (Ident → String)
  | [], names => names
  | (id, some obj) :: rest, names =>
    if obj ∈ objsToUpdate then renameDefs objsToUpdate pre rest (setName names id (pre ++ obj.name))
    else renameDefs objsToUpdate pre rest names
  | (_, none) :: rest, names => renameDefs objsToUpdate pre rest names

/-- Second loop of `renamePackageDeclarations`, over `TypesInfo.Uses`. -/
def renameUses (objsToUpdate : List Object) (pre : String) :
    List (Ident × Object) → (Ident → String) → (Ident → String)
  | [], names => names
  | (id, obj) :: rest, names =>
    if obj ∈ objsToUpdate then renameUses objsToUpdate pre rest (setName names id (pre ++ obj.name))
    else renameUses objsToUpdate pre rest names

/-- Source `renamePackageDeclarations`. -/
def renamePackageDeclarations (packageInfo : Package) (objsToUpdate : List Object)
    (pre : String) : Package :=
  { packageInfo with
    names := renameUses objsToUpdate pre packageInfo.uses
      (renameDefs objsToUpdate pre packageInfo.defs packageInfo.names) }

/-! ## Reference rewriter -/

/-- The callback of `ast.Inspect` in `modifyEachFileAST` applied to the node `n`. -/
def rewriteSelector (uses : List (Ident × Object)) (usedPackage pre : String)
    (n : Node) (names : Ident → String) : Ident → String :=
  match n with
  | .selector (.ident id) sel =>
    match lookupUse uses id with
    | some ⟨_, _, .pkgName path⟩ =>
      if path = usedPackage then setName (setName names sel (pre ++ names sel)) id "@@@"
      else names
    | _ => names
  | _ => names

/-- Go `ast.Inspect` with the callback of `modifyEachFileAST`: a node is visited
before its children, the children from left to right. -/
def inspectNode (uses : List (Ident × Object)) (usedPackage pre : String) :
    Node → (Ident → String) → (Ident → String)
  | .ident id, names => rewriteSelector uses usedPackage pre (.ident id) names
  | .lit t, names => rewriteSelector uses usedPackage pre (.lit t) names
  | .seq l r, names =>
    inspectNode uses usedPackage pre r
      (inspectNode uses usedPackage pre l (rewriteSelector uses usedPackage pre (.seq l r) names))
  | .selector x sel, names =>
    rewriteSelector uses usedPackage pre (.ident sel)
      (inspectNode uses usedPackage pre x
        (rewriteSelector uses usedPackage pre (.selector x sel) names))

/-- The tree of a declaration. -/
def Decl.body : Decl → Node
  | .genDecl _ _ _ _ _ b => b
  | .funcDecl _ _ _ b => b
  | .badDecl _ _ b => b

/-- Walk over the declarations of one file. -/
def inspectDecls (uses : List (Ident × Object)) (usedPackage pre : String) :
    List Decl → (Ident → String) → (Ident → String)
  | [], names => names
  | d :: ds, names =>
    inspectDecls uses usedPackage pre ds (inspectNode uses usedPackage pre d.body names)

/-- Loop of `modifyEachFileAST` over `packageInfo.Syntax`. -/
def inspectFiles (uses : List (Ident × Object)) (usedPackage pre : String) :
    List File → (Ident → String) → (Ident → String)
  | [], names => names
  | f :: fs, names =>
    inspectFiles uses usedPackage pre fs (inspectDecls uses usedPackage pre f.decls names)

/-- Source `modifyEachFileAST`. -/
def modifyEachFileAST (packageInfo : Package) (usedPackage pre : String) : Package :=
  { packageInfo with
    names := inspectFiles packageInfo.uses usedPackage pre packageInfo.syntax_ packageInfo.names }

/-! ## Symbol collision resolver -/

/-- The `range` loop over `TypesInfo.Uses` inside `traverse`; `recur` is the
recursive call. -/
def traverseUses (recur : List Object → Object → Except Fault (List Object))
    (defs : List (Ident × Option Object)) (src : Object) :
    List (Ident × Object) → List Object → Except Fault (List Object)
  | [], objs => .ok objs
  | (id, obj) :: rest, objs =>
    if obj = src then
      match lookupDef defs id with
      | some field =>
        match recur objs field with
        | .ok objs1 => traverseUses recur defs src rest objs1
        | .error e => .error e
      | none => traverseUses recur defs src rest objs
    else traverseUses recur defs src rest objs

/-- The closure `traverse` of `getObjectsToUpdate`; the recursion depth is
bounded by `fuel`. -/
def traverse (packageInfo : Package) : Nat → List Object → Object → Except Fault (List Object)
  | 0, _, _ => .error .outOfFuel
  | fuel + 1, objsToUpdate, src =>
    if src ∈ objsToUpdate then .ok objsToUpdate
    else if src.kind = .typeName then
      traverseUses (traverse packageInfo fuel) packageInfo.defs src packageInfo.uses
        (src :: objsToUpdate)
    else .ok (src :: objsToUpdate)

/-- The loop over `scope.Names()` at the end of `getObjectsToUpdate`. -/
def traverseScope (packageInfo : Package) (fuel : Nat) :
    List Object → List Object → Except Fault (List Object)
  | [], objs => .ok objs
  | o :: rest, objs =>
    match traverse packageInfo fuel objs o with
    | .ok objs1 => traverseScope packageInfo fuel rest objs1
    | .error e => .error e

/-- Recursion depth that `getObjectsToUpdate` is run with: one more than the
number of objects the package mentions. -/
def traverseFuel (packageInfo : Package) : Nat :=
  packageInfo.scope.length + packageInfo.defs.length + 1

/-- Source `getObjectsToUpdate`. -/
def getObjectsToUpdate (packageInfo : Package) : Except Fault (List Object) :=
  traverseScope packageInfo (traverseFuel packageInfo) packageInfo.scope []

/-! ## Source emitter -/

/-- A `bytes.Buffer` that receives emitted source.  `text` is its content;
`log` records, in order, the comment groups whose text the comment passes have
written into it.  The program never reads `log`. -/
structure Buffer where
  text : String
  log : List CommentGroup

/-- The model of `format.Node` of package `go/format`, an external printer:
an identifier prints as its current `Name`, a selector as `X.Sel`, a token as
itself, any other node as its children in order. -/
def printNode (names : Ident → String) : Node → String
  | .ident id => names id
  | .selector x sel => printNode names x ++ "." ++ names sel
  | .lit t => t
  | .seq l r => printNode names l ++ printNode names r

/-- `Pos()` of a declaration. -/
def Decl.pos : Decl → Nat
  | .genDecl _ _ _ p _ _ => p
  | .funcDecl _ p _ _ => p
  | .badDecl p _ _ => p

/-- `End()` of a declaration. -/
def Decl.endPos : Decl → Nat
  | .genDecl _ _ _ _ e _ => e
  | .funcDecl _ _ e _ => e
  | .badDecl _ e _ => e

/-- The test `decl.(*ast.GenDecl)` with `Tok == token.IMPORT`. -/
def Decl.isImportDecl : Decl → Bool
  | .genDecl isImport _ _ _ _ _ => isImport
  | _ => false

/-- The variable `doc` of `sourceRange`. -/
def declDoc : Decl → Option CommentGroup
  | .genDecl _ doc _ _ _ _ => doc
  | .funcDecl doc _ _ _ => doc
  | .badDecl _ _ _ => none

/-- The variable `com` of `sourceRange`: the comment of the last spec of a
general declaration when that spec is a value or a type spec. -/
def declCom : Decl → Option CommentGroup
  | .genDecl _ _ specs _ _ _ =>
    match specs.getLast? with
    | some (.valueSpec c) => c
    | some (.typeSpec c) => c
    | _ => none
  | _ => none

/-- Source `sourceRange`. -/
def sourceRange (decl : Decl) : Nat × Nat :=
  let beg := match declDoc decl with
    | some doc => doc.pos
    | none => decl.pos
  let end_ := match declCom decl with
    | some com => if com.endPos > decl.endPos then com.endPos else decl.endPos
    | none => decl.endPos
  (beg, end_)

/-- The loop `for _, c := range cg.List { fmt.Fprintln(out, c.Text) }`. -/
def writeLines (text : String) : List String → String
  | [] => text
  | c :: cs => writeLines (text ++ c ++ "\n") cs

/-- Source `printComments`. -/
def printComments (out : Buffer) : List CommentGroup → Nat → Nat → Buffer
  | [], _, _ => out
  | cg :: rest, pos, end_ =>
    if pos ≤ cg.pos ∧ cg.pos < end_ then
      printComments { text := writeLines out.text cg.list ++ "\n", log := out.log ++ [cg] }
        rest pos end_
    else printComments out rest pos end_

/-- Source constant `infinity`. -/
def infinity : Nat := 2 ^ 30

/-- Source `printLastComments`. -/
def printLastComments (out : Buffer) (comments : List CommentGroup) (pos : Nat) : Buffer :=
  printComments out comments pos infinity

/-- Source `printSameLineComment`; `line` is `tf.Line`. -/
def printSameLineComment (out : Buffer) (line : Nat → Nat) :
    List CommentGroup → Nat → Buffer × Nat
  | [], pos => (out, pos)
  | cg :: rest, pos =>
    if pos ≤ cg.pos ∧ line cg.pos = line pos then
      ({ text := writeLines out.text cg.list, log := out.log ++ [cg] }, cg.endPos)
    else printSameLineComment out line rest pos

/-- The initial value of `last` in `writeFilesToOutput`. -/
def initialLast (f : File) : Nat :=
  match f.imports.getLast? with
  | none => f.package
  | some imp =>
    match imp.comment with
    | some c => if c.endPos > imp.endPos then c.endPos else imp.endPos
    | none => imp.endPos

/-- The loop over `f.Decls` in `writeFilesToOutput`; returns the buffer and the
final value of `last`. -/
def writeDecls (names : Ident → String) (f : File) :
    List Decl → Buffer → Nat → Buffer × Nat
  | [], codeOut, last => (codeOut, last)
  | decl :: rest, codeOut, last =>
    if decl.isImportDecl then writeDecls names f rest codeOut last
    else
      let (beg, end_) := sourceRange decl
      let out1 := printComments codeOut f.comments last beg
      let buf := printNode names decl.body
      let out2 : Buffer := { out1 with text := out1.text ++ bytesReplace buf "@@@." "" }
      let (out3, last1) := printSameLineComment out2 f.line f.comments end_
      let out4 : Buffer := { out3 with text := out3.text ++ "\n\n" }
      writeDecls names f rest out4 last1

/-- The body of the loop over `packageInfo.Syntax` in `writeFilesToOutput`. -/
def writeFile (names : Ident → String) (f : File) (codeOut : Buffer) : Buffer :=
  let (out, last) := writeDecls names f f.decls codeOut (initialLast f)
  printLastComments out f.comments last

/-- The loop over `packageInfo.Syntax` in `writeFilesToOutput`. -/
def writeFiles (names : Ident → String) : List File → Buffer → Buffer
  | [], codeOut => codeOut
  | f :: fs, codeOut => writeFiles names fs (writeFile names f codeOut)

/-- Source `writeFilesToOutput`. -/
def writeFilesToOutput (packageInfo : Package) (codeOut : Buffer) : Buffer :=
  writeFiles packageInfo.names packageInfo.syntax_ codeOut

/-! ## Dependency graph walker -/

/-- Source `sortedImports`; the argument lists the keys of `pkg.Imports`. -/
def sortedImports (imports : List String) : List String :=
  sortStrings imports

/-- The variables captured by `recurseDependencyTree`.  `loaded` and `written`
are the call logs of `loadFilesOfPackage` (its argument at each call made by
the walker's loop) and of `writeFilesToOutput` (the package passed at each
call); the program never reads them. -/
structure WalkState where
  pkgStd : List String
  pkgExt : List String
  codeOut : Buffer
  loaded : List String
  written : List Package

/-- The loop `for _, imp := range imports` of `recurseDependencyTree`; `recur`
is the recursive call and `pkg` the package whose syntax the loop rewrites. -/
def importsLoop (cfg : Config) (load : String → LoadResult)
    (recur : Package → WalkState → Except Fault WalkState) :
    List String → Package → WalkState → Except Fault (Package × WalkState)
  | [], pkg, st => .ok (pkg, st)
  | imp :: rest, pkg, st =>
    if isStandardImportPath imp || cfg.isTorbitDependency imp then
      importsLoop cfg load recur rest pkg { st with pkgStd := setInsert imp st.pkgStd }
    else if isSharedDependency cfg imp || isVendorDependency imp then
      if imp ∈ st.pkgExt then importsLoop cfg load recur rest pkg st
      else
        match loadFilesOfPackage load imp with
        | .error e => .error e
        | .ok depPkg =>
          let pkg1 := modifyEachFileAST pkg imp (depPkg.name ++ "_")
          match getObjectsToUpdate depPkg with
          | .error e => .error e
          | .ok objs =>
            let depPkg1 := renamePackageDeclarations depPkg objs (depPkg.name ++ "_")
            match recur depPkg1 { st with loaded := st.loaded ++ [imp] } with
            | .error e => .error e
            | .ok st1 => importsLoop cfg load recur rest pkg1 st1
    else importsLoop cfg load recur rest pkg st

/-- The closure `recurseDependencyTree` of `traverseDependencyTree`; `pkgName`
is the parameter of the enclosing function, `fuel` bounds the recursion depth. -/
def recurseDependencyTree (cfg : Config) (load : String → LoadResult) (pkgName : String) :
    Nat → Package → WalkState → Except Fault WalkState
  | 0, _, _ => .error .outOfFuel
  | fuel + 1, pkg, st =>
    match importsLoop cfg load (recurseDependencyTree cfg load pkgName fuel)
        (sortedImports pkg.imports) pkg st with
    | .error e => .error e
    | .ok (pkg1, st1) =>
      .ok { st1 with
            pkgExt := setInsert pkgName st1.pkgExt
            codeOut := writeFilesToOutput pkg1 st1.codeOut
            written := st1.written ++ [pkg1] }

/-- Source `traverseDependencyTree`; the result carries the returned `codeOut`
and `pkgStd`. -/
def traverseDependencyTree (cfg : Config) (load : String → LoadResult) (fuel : Nat)
    (pkgName : String) : Except Fault WalkState :=
  match loadFilesOfPackage load pkgName with
  | .error e => .error e
  | .ok pkg =>
    recurseDependencyTree cfg load pkgName fuel pkg
      { pkgStd := [], pkgExt := [], codeOut := { text := "", log := [] },
        loaded := [], written := [] }

/-! ## Observations on a run -/

/-- The text of the returned `codeOut`, if the run returns. -/
def outText : Except Fault WalkState → Option String
  | .ok st => some st.codeOut.text
  | .error _ => none

/-- The keys of the returned `pkgStd`, if the run returns. -/
def outStd : Except Fault WalkState → Option (List String)
  | .ok st => some st.pkgStd
  | .error _ => none

/-- The arguments of the walker's calls of `loadFilesOfPackage`, if the run returns. -/
def outLoaded : Except Fault WalkState → Option (List String)
  | .ok st => some st.loaded
  | .error _ => none

/-- The keys of `pkgExt` at the end, if the run returns. -/
def outExt : Except Fault WalkState → Option (List String)
  | .ok st => some st.pkgExt
  | .error _ => none

/-! ## Concrete packages used as test inputs -/

/-- Name table given by a finite list, other identifiers are unnamed. -/
def namesOf : List (Ident × String) → Ident → String
  | [], _ => ""
  | (k, v) :: rest, id => if id = k then v else namesOf rest id

/-- A file without imports and comments holding the given function declarations,
one per line, ten positions apart. -/
def fileOf (bodies : List Node) : File :=
  { package := 1
    imports := []
    decls := (List.range bodies.length).zipWith
      (fun k b => Decl.funcDecl none (10 * (k + 1)) (10 * (k + 1) + 5) b) bodies
    comments := []
    line := fun p => p / 10 }

/-- Configuration of the examples: root module `github.com/acme`, no path is a
Torbit dependency. -/
def exampleCfg : Config :=
  { rootModule := "github.com/acme", isTorbitDependency := fun _ => false }

/-- Object `D` of package `d`. -/
def objD : Object := ⟨1, "D", .other⟩
/-- Object `B` of package `b`. -/
def objB : Object := ⟨2, "B", .other⟩
/-- Object `C` of package `c`. -/
def objC : Object := ⟨3, "C", .other⟩
/-- Object `main` of the root package. -/
def objMain : Object := ⟨4, "main", .other⟩

/-- Package `d`: `func D() {}`. -/
def pkgD : Package :=
  { name := "d", imports := []
    syntax_ := [fileOf [.seq (.lit "func ") (.seq (.ident 0) (.lit "() \x7b\x7d"))]]
    names := namesOf [(0, "D")]
    defs := [(0, some objD)], uses := [], scope := [objD] }

/-- Package `b`: `func B() { d.D() }`, importing `d`. -/
def pkgB : Package :=
  { name := "b", imports := ["github.com/acme/d"]
    syntax_ := [fileOf [.seq (.lit "func ") (.seq (.ident 0)
      (.seq (.lit "() \x7b ") (.seq (.selector (.ident 1) 2) (.lit "() \x7d"))))]]
    names := namesOf [(0, "B"), (1, "d"), (2, "D")]
    defs := [(0, some objB)]
    uses := [(1, ⟨10, "d", .pkgName "github.com/acme/d"⟩), (2, objD)]
    scope := [objB] }

/-- Package `c`: `func C() { d.D() }`, importing `d`. -/
def pkgC : Package :=
  { name := "c", imports := ["github.com/acme/d"]
    syntax_ := [fileOf [.seq (.lit "func ") (.seq (.ident 0)
      (.seq (.lit "() \x7b ") (.seq (.selector (.ident 1) 2) (.lit "() \x7d"))))]]
    names := namesOf [(0, "C"), (1, "d"), (2, "D")]
    defs := [(0, some objC)]
    uses := [(1, ⟨10, "d", .pkgName "github.com/acme/d"⟩), (2, objD)]
    scope := [objC] }

/-- The root package: `func main() { b.B(); c.C() }`, importing `b` and `c`. -/
def pkgRoot : Package :=
  { name := "main", imports := ["github.com/acme/c", "github.com/acme/b"]
    syntax_ := [fileOf [.seq (.lit "func ") (.seq (.ident 0)
      (.seq (.lit "() \x7b ") (.seq (.selector (.ident 1) 2)
        (.seq (.lit "(); ") (.seq (.selector (.ident 3) 4) (.lit "() \x7d"))))))]]
    names := namesOf [(0, "main"), (1, "b"), (2, "B"), (3, "c"), (4, "C")]
    defs := [(0, some objMain)]
    uses := [(1, ⟨11, "b", .pkgName "github.com/acme/b"⟩), (2, objB),
             (3, ⟨12, "c", .pkgName "github.com/acme/c"⟩), (4, objC)]
    scope := [objMain] }

/-- The diamond: the root imports `b` and `c`, both import `d`. -/
def diamondLoad (path : String) : LoadResult :=
  if path = "github.com/acme/app" then ⟨[pkgRoot], false⟩
  else if path = "github.com/acme/b" then ⟨[pkgB], false⟩
  else if path = "github.com/acme/c" then ⟨[pkgC], false⟩
  else if path = "github.com/acme/d" then ⟨[pkgD], false⟩
  else ⟨[], true⟩

/-! ## Further test inputs -/

/-- The name of the module a load returns, if it returns one. -/
def loadedName : Except Fault Package → Option String
  | .ok p => some p.name
  | .error _ => none

/-- A resolution that yields two modules for every path and reports no error. -/
def ambiguousLoad (_ : String) : LoadResult := ⟨[pkgD, pkgB], false⟩

/-- One line of the import block, as `handleImports` formats it. -/
def importLine (p : String) : String := "\"" ++ p ++ "\"\n"

/-- Concatenation of a list of strings. -/
def concatAll : List String → String
  | [] => ""
  | s :: ss => s ++ concatAll ss

/-! ## Notions used to state the properties of the collision resolver -/

/-- The rule of the collision set: `S` is a named type, some identifier of the
use map resolves to `S`, and the definition map records the declared object
`F` for that identifier. -/
def Edge (pkg : Package) (S F : Object) : Prop :=
  S.kind = .typeName ∧ ∃ id, (id, S) ∈ pkg.uses ∧ lookupDef pkg.defs id = some F

/-- A set of symbols that contains the package scope and is closed under the rule. -/
def ClosedSet (pkg : Package) (s : Object → Prop) : Prop :=
  (∀ o ∈ pkg.scope, s o) ∧ ∀ S F, s S → Edge pkg S F → s F

/-- The objects reached from the roots by following the rule. -/
inductive Reach (pkg : Package) (roots : Object → Prop) : Object → Prop where
  | root (o : Object) : roots o → Reach pkg roots o
  | step (S F : Object) : Reach pkg roots S → Edge pkg S F → Reach pkg roots F

/-- The objects a package mentions: its scope and the values of its definition map. -/
def mentioned (pkg : Package) : List Object :=
  pkg.scope ++ pkg.defs.filterMap Prod.snd

/-- Number of mentioned objects that are not in `objs`. -/
def unvisited (pkg : Package) (objs : List Object) : Nat :=
  ((mentioned pkg).toFinset \ objs.toFinset).card

/-- What one call of `traverse` does to the set: it grows, only by objects
reached from the start, and every object it adds has its successors in the
result. -/
def Grows (pkg : Package) (reach : Object → Prop) (objs objs1 : List Object) : Prop :=
  (∀ o ∈ objs, o ∈ objs1) ∧
  (∀ o ∈ objs1, o ∈ objs ∨ reach o) ∧
  (∀ S ∈ objs1, S ∉ objs → ∀ F, Edge pkg S F → F ∈ objs1)

/-! ## Notions used to state the properties of the comment passes -/

/-- The comment group `printSameLineComment` writes for the position `pos`, if any. -/
def sameLinePick (line : Nat → Nat) (comments : List CommentGroup) (pos : Nat) :
    Option CommentGroup :=
  comments.find? (fun cg => decide (pos ≤ cg.pos ∧ line cg.pos = line pos))

/-- The position `printSameLineComment` returns for the position `pos`. -/
def sameLineLast (line : Nat → Nat) (comments : List CommentGroup) (pos : Nat) : Nat :=
  match sameLinePick line comments pos with
  | some cg => cg.endPos
  | none => pos

/-- The comment groups that the passes of `writeFilesToOutput` write for the
declarations `ds` of file `f`, starting with `last`, the final flush included. -/
def commentLog (f : File) : List Decl → Nat → List CommentGroup
  | [], last => f.comments.filter (fun cg => decide (last ≤ cg.pos ∧ cg.pos < infinity))
  | d :: ds, last =>
    if d.isImportDecl then commentLog f ds last
    else
      f.comments.filter (fun cg => decide (last ≤ cg.pos ∧ cg.pos < (sourceRange d).1))
        ++ (sameLinePick f.line f.comments (sourceRange d).2).toList
        ++ commentLog f ds (sameLineLast f.line f.comments (sourceRange d).2)

/-- The declarations of a file that the emitter does not skip. -/
def emittedDecls (f : File) : List Decl :=
  f.decls.filter (fun d => !d.isImportDecl)

/-- Order of two emitted declarations: the first ends no later than the second,
and a comment group that starts on the line on which the first ends, at or
after that end, starts before the end of the second. -/
def EndsBefore (f : File) (d d1 : Decl) : Prop :=
  (sourceRange d).2 ≤ (sourceRange d1).2 ∧
    ∀ c ∈ f.comments, (sourceRange d).2 ≤ c.pos →
      f.line c.pos = f.line (sourceRange d).2 → c.pos < (sourceRange d1).2

instance (f : File) (d d1 : Decl) : Decidable (EndsBefore f d d1) := by
  unfold EndsBefore
  infer_instance

/-- Well-formedness of a file as far as the comment passes depend on it:
comment groups are non-empty and listed in source order without overlap,
line numbers grow with positions, the source range of a declaration is
non-empty, the declarations end in source order, and a comment group that
starts on the line on which a declaration ends, at or after that end, starts
before the end of every later declaration. -/
structure FileOrdered (f : File) : Prop where
  commentsSorted : f.comments.Pairwise (fun a b => a.endPos ≤ b.pos)
  commentsNonempty : ∀ c ∈ f.comments, c.pos < c.endPos
  lineMono : ∀ p q, p ≤ q → f.line p ≤ f.line q
  rangeNonempty : ∀ d ∈ emittedDecls f, (sourceRange d).1 ≤ (sourceRange d).2
  declsSorted : (emittedDecls f).Pairwise (EndsBefore f)

/-! ## Files used as test inputs of the emitter -/

/-- `End()` of the last import of a file, if it has imports. -/
def lastImportEnd (f : File) : Option Nat :=
  f.imports.getLast?.map (fun imp => imp.endPos)

/-- The line comment of the import in `importFile`. -/
def importComment : CommentGroup := ⟨21, 30, ["// formatted I/O"]⟩

/-- The file
`package p; import "fmt" // formatted I/O` (first line), `func f() {}` (second
line): the import ends at 20, its line comment follows at 21. -/
def importFile : File :=
  { package := 1
    imports := [⟨20, some importComment⟩]
    decls := [.genDecl true none [.importSpec] 8 20 (.lit "import \"fmt\""),
              .funcDecl none 40 51 (.lit "func f() \x7b\x7d")]
    comments := [importComment]
    line := fun p => p / 35 }

/-- Comment on the line on which `func a` ends. -/
def trailingComment : CommentGroup := ⟨22, 28, ["// a"]⟩
/-- Documentation of `func b`. -/
def docComment : CommentGroup := ⟨30, 38, ["// b does"]⟩
/-- Comment after the last declaration. -/
def finalComment : CommentGroup := ⟨60, 70, ["// the end"]⟩

/-- The file `package p`, `func a() {} // a` (line 0), `// b does` and
`func b() {}` (line 1), `// the end` (line 2). -/
def commentFile : File :=
  { package := 1
    imports := []
    decls := [.funcDecl none 10 21 (.lit "func a() \x7b\x7d"),
              .funcDecl (some docComment) 39 50 (.lit "func b() \x7b\x7d")]
    comments := [trailingComment, docComment, finalComment]
    line := fun p => p / 30 }

/-! ## Notions used to state the properties of the walker -/

/-- The first test of the walker's loop: the import stays an import. -/
def keeps (cfg : Config) (imp : String) : Bool :=
  isStandardImportPath imp || cfg.isTorbitDependency imp

/-- The second test of the walker's loop, reached when the first fails:
the import is loaded and inlined. -/
def inlines (cfg : Config) (imp : String) : Bool :=
  !keeps cfg imp && (isSharedDependency cfg imp || isVendorDependency imp)

/-- The import paths the walker meets when it starts with the imports `start`:
those, and the imports of every inlined module it meets. -/
inductive ReachFrom (cfg : Config) (load : String → LoadResult) (start : List String) :
    String → Prop where
  | direct (q : String) : q ∈ start → ReachFrom cfg load start q
  | via (p q : String) (pkg : Package) : ReachFrom cfg load start p →
      inlines cfg p = true → (load p).pkgs.head? = some pkg → q ∈ pkg.imports →
      ReachFrom cfg load start q

/-- The full transitive import closure of the imports `start`: every import of
every module met, kept or not. -/
inductive ImportClosure (load : String → LoadResult) (start : List String) :
    String → Prop where
  | direct (q : String) : q ∈ start → ImportClosure load start q
  | via (p q : String) (pkg : Package) : ImportClosure load start p →
      (load p).pkgs.head? = some pkg → q ∈ pkg.imports → ImportClosure load start q

/-- An acyclic dependency graph in which every inlined import resolves: `rank`
decreases along every edge to an inlined module. -/
structure AcyclicGraph (cfg : Config) (load : String → LoadResult) (rank : String → Nat) :
    Prop where
  resolves : ∀ p pkg, (load p).pkgs.head? = some pkg →
    ∀ q ∈ pkg.imports, inlines cfg q = true → (load q).pkgs ≠ []
  descends : ∀ p pkg, (load p).pkgs.head? = some pkg →
    ∀ q ∈ pkg.imports, inlines cfg q = true → rank q < rank p

/-- The package the walker starts on for the path `p`: the loaded package (the
root) or the loaded package after the renaming of its collision set (an
inlined dependency). -/
def OriginAt (load : String → LoadResult) (p : String) (pkg : Package) : Prop :=
  ∃ L, (load p).pkgs.head? = some L ∧
    (pkg = L ∨ ∃ objs, getObjectsToUpdate L = .ok objs ∧
      pkg = renamePackageDeclarations L objs (L.name ++ "_"))

/-- The reference rewriter applied for every inlined import of the list, in order. -/
def rewriteAll (cfg : Config) (load : String → LoadResult) : List String → Package → Package
  | [], pkg => pkg
  | imp :: rest, pkg =>
    if inlines cfg imp then
      match (load imp).pkgs with
      | dep :: _ => rewriteAll cfg load rest (modifyEachFileAST pkg imp (dep.name ++ "_"))
      | [] => rewriteAll cfg load rest pkg
    else rewriteAll cfg load rest pkg

/-- The emitter applied to a list of packages, in order. -/
def writeAll : Buffer → List Package → Buffer
  | out, [] => out
  | out, p :: ps => writeAll (writeFilesToOutput p out) ps

/-- What the walker does to its state when it processes the imports `imports`;
`new` lists the packages it passes to the emitter meanwhile. -/
def WalkPost (cfg : Config) (load : String → LoadResult) (pkgName : String)
    (imports : List String) (st st1 : WalkState) (new : List Package) : Prop :=
  (∀ x ∈ st1.pkgExt, x = pkgName) ∧
  (∀ q, q ∈ st1.pkgStd ↔ q ∈ st.pkgStd ∨ (ReachFrom cfg load imports q ∧ keeps cfg q = true)) ∧
  (∀ q, q ∈ st1.loaded ↔
    q ∈ st.loaded ∨ (ReachFrom cfg load imports q ∧ inlines cfg q = true)) ∧
  st1.written = st.written ++ new ∧ st1.codeOut = writeAll st.codeOut new ∧
  (∀ M ∈ new, ∃ p M0, OriginAt load p M0 ∧
    M = rewriteAll cfg load (sortedImports M0.imports) M0) ∧
  (∀ q, ReachFrom cfg load imports q → inlines cfg q = true →
    ∃ M0, OriginAt load q M0 ∧ rewriteAll cfg load (sortedImports M0.imports) M0 ∈ new)

/-! ## Further graphs used as test inputs -/

/-- Rank of the paths of the diamond. -/
def diamondRank (path : String) : Nat :=
  if path = "github.com/acme/app" then 2
  else if path = "github.com/acme/d" then 0
  else 1

/-- A root that imports `fmt` and `golang.org/x/sync`. -/
def pkgTool : Package :=
  { name := "main", imports := ["golang.org/x/sync", "fmt"]
    syntax_ := [fileOf [.seq (.lit "func ") (.seq (.ident 0) (.lit "() \x7b\x7d"))]]
    names := namesOf [(0, "main")]
    defs := [(0, some objMain)], uses := [], scope := [objMain] }

/-- A graph with the single module `pkgTool`. -/
def toolLoad (path : String) : LoadResult :=
  if path = "github.com/acme/tool" then ⟨[pkgTool], false⟩ else ⟨[], true⟩

/-- Configuration with the root module `myapp`. -/
def localCfg : Config :=
  { rootModule := "myapp", isTorbitDependency := fun _ => false }

/-- A root `myapp/cmd` that imports `myapp/util`. -/
def pkgCmd : Package :=
  { name := "main", imports := ["myapp/util"]
    syntax_ := [fileOf [.seq (.lit "func ") (.seq (.ident 0) (.lit "() \x7b\x7d"))]]
    names := namesOf [(0, "main")]
    defs := [(0, some objMain)], uses := [], scope := [objMain] }

/-- The graph of `myapp`: `myapp/cmd` imports `myapp/util`, which is `pkgD`. -/
def localLoad (path : String) : LoadResult :=
  if path = "myapp/cmd" then ⟨[pkgCmd], false⟩
  else if path = "myapp/util" then ⟨[pkgD], false⟩
  else ⟨[], true⟩

/-- Type `Config` of the first package named `util`. -/
def objConfigX : Object := ⟨20, "Config", .typeName⟩
/-- Type `Config` of the second package named `util`. -/
def objConfigY : Object := ⟨21, "Config", .typeName⟩
/-- Type `Config` of the package named `conf`. -/
def objConfigZ : Object := ⟨22, "Config", .typeName⟩

/-- Package `github.com/acme/x/util`: `type Config struct{}`. -/
def pkgUtilX : Package :=
  { name := "util", imports := []
    syntax_ := [fileOf [.seq (.lit "type ") (.seq (.ident 0) (.lit " struct\x7b\x7d"))]]
    names := namesOf [(0, "Config")]
    defs := [(0, some objConfigX)], uses := [], scope := [objConfigX] }

/-- Package `github.com/acme/y/util`: `type Config struct{ n int }`. -/
def pkgUtilY : Package :=
  { name := "util", imports := []
    syntax_ := [fileOf [.seq (.lit "type ") (.seq (.ident 0) (.lit " struct\x7b n int \x7d"))]]
    names := namesOf [(0, "Config")]
    defs := [(0, some objConfigY)], uses := [], scope := [objConfigY] }

/-- Package `github.com/acme/conf`: `type Config struct{}`. -/
def pkgConf : Package :=
  { name := "conf", imports := []
    syntax_ := [fileOf [.seq (.lit "type ") (.seq (.ident 0) (.lit " struct\x7b\x7d"))]]
    names := namesOf [(0, "Config")]
    defs := [(0, some objConfigZ)], uses := [], scope := [objConfigZ] }

/-- A root that imports both packages named `util`:
`var a ux.Config` and `var b uy.Config`. -/
def pkgSvc : Package :=
  { name := "main", imports := ["github.com/acme/x/util", "github.com/acme/y/util"]
    syntax_ := [fileOf [.seq (.lit "var ") (.seq (.ident 0)
                  (.seq (.lit " ") (.selector (.ident 1) 2))),
                .seq (.lit "var ") (.seq (.ident 3)
                  (.seq (.lit " ") (.selector (.ident 4) 5)))]]
    names := namesOf [(0, "a"), (1, "ux"), (2, "Config"), (3, "b"), (4, "uy"), (5, "Config")]
    defs := [(0, some ⟨30, "a", .other⟩), (3, some ⟨31, "b", .other⟩)]
    uses := [(1, ⟨32, "ux", .pkgName "github.com/acme/x/util"⟩), (2, objConfigX),
             (4, ⟨33, "uy", .pkgName "github.com/acme/y/util"⟩), (5, objConfigY)]
    scope := [⟨30, "a", .other⟩, ⟨31, "b", .other⟩] }

/-- The graph of `pkgSvc`. -/
def clashLoad (path : String) : LoadResult :=
  if path = "github.com/acme/svc" then ⟨[pkgSvc], false⟩
  else if path = "github.com/acme/x/util" then ⟨[pkgUtilX], false⟩
  else if path = "github.com/acme/y/util" then ⟨[pkgUtilY], false⟩
  else ⟨[], true⟩

/-- Well-formedness of the type information of a package: neither map has a
repeated key, and an identifier that is a key of both maps (an embedded field)
resolves in both to objects of the same name. -/
structure InfoWF (pkg : Package) : Prop where
  defsNodup : (pkg.defs.map Prod.fst).Nodup
  usesNodup : (pkg.uses.map Prod.fst).Nodup
  sameName : ∀ id o1 o2, (id, some o1) ∈ pkg.defs → (id, o2) ∈ pkg.uses → o1.name = o2.name

/-- The name the walker gives the renamed identifier `id` of an inlined package. -/
def renamedName (pkg : Package) (id : Ident) : Option String :=
  match getObjectsToUpdate pkg with
  | .ok objs => some ((renamePackageDeclarations pkg objs (pkg.name ++ "_")).names id)
  | .error _ => none

/-! ## Notions used to state the properties of the reference rewriter -/

/-- The identifier nodes of a tree, in the order of `ast.Inspect`. -/
def Node.idents : Node → List Ident
  | .ident id => [id]
  | .selector x sel => x.idents ++ [sel]
  | .lit _ => []
  | .seq l r => l.idents ++ r.idents

/-- The selector expressions of a tree whose `X` is an identifier, as pairs of
the qualifier `X` and the selected identifier `Sel`. -/
def Node.selectors : Node → List (Ident × Ident)
  | .ident _ => []
  | .selector x sel =>
    (match x with
      | .ident q => [(q, sel)]
      | _ => []) ++ x.selectors
  | .lit _ => []
  | .seq l r => l.selectors ++ r.selectors

/-- A list of trees as one tree. -/
def seqAll : List Node → Node
  | [] => .lit ""
  | n :: ns => .seq n (seqAll ns)

/-- The declarations of all files of a package as one tree. -/
def pkgTree (pkg : Package) : Node :=
  seqAll (pkg.syntax_.map (fun f => seqAll (f.decls.map Decl.body)))

/-- The identifier nodes of the syntax of a package. -/
def pkgIdents (pkg : Package) : List Ident := (pkgTree pkg).idents

/-- The package-qualified selector expressions of the syntax of a package. -/
def pkgSelectors (pkg : Package) : List (Ident × Ident) := (pkgTree pkg).selectors

/-- The identifier `q` resolves, through the use map, to the import of the
package with path `D`. -/
def ImportsPkg (uses : List (Ident × Object)) (q : Ident) (D : String) : Prop :=
  ∃ i nm, lookupUse uses q = some ⟨i, nm, .pkgName D⟩

/-- Well-formedness of the syntax of a package: every identifier node occurs
once (the syntax is a tree), and the import map has no repeated key. -/
def SyntaxWF (pkg : Package) : Prop :=
  (pkgIdents pkg).Nodup ∧ pkg.imports.Nodup

/-! ## A package with an embedded field -/

/-- Type `S`. -/
def objS : Object := ⟨40, "S", .typeName⟩
/-- Type `T`. -/
def objT : Object := ⟨41, "T", .typeName⟩
/-- The embedded field `S` of `T`. -/
def objFieldS : Object := ⟨42, "S", .other⟩

/-- Package `e`: `type S struct{}` and `type T struct{ S }`.  The identifier 2,
the embedded field, is a key of both maps: it defines the field and uses the
type. -/
def pkgEmbed : Package :=
  { name := "e", imports := []
    syntax_ := [fileOf [.seq (.lit "type ") (.seq (.ident 0) (.lit " struct\x7b\x7d")),
                .seq (.lit "type ") (.seq (.ident 1)
                  (.seq (.lit " struct\x7b ") (.seq (.ident 2) (.lit " \x7d"))))]]
    names := namesOf [(0, "S"), (1, "T"), (2, "S")]
    defs := [(0, some objS), (1, some objT), (2, some objFieldS)]
    uses := [(2, objS)]
    scope := [objS, objT] }

/-! ## The expected output of a run -/

/-- The identifier nodes of a tree that are no part of a package-qualified
selector: every identifier except the `X` and the `Sel` of a selector whose
`X` is an identifier. -/
def Node.plain : Node → List Ident
  | .ident id => [id]
  | .selector x sel =>
    match x with
    | .ident _ => []
    | _ => x.plain ++ [sel]
  | .lit _ => []
  | .seq l r => l.plain ++ r.plain

/-- The tokens of a tree. -/
def Node.lits : Node → List String
  | .ident _ => []
  | .selector x _ => x.lits
  | .lit t => [t]
  | .seq l r => l.lits ++ r.lits

/-- The short name of the inlined module that the qualifier `q` of package
`pkg` stands for: `q` resolves through the use map to the import of a path
that is an import of `pkg`, is classified Inline and resolves to a module. -/
def resolveImport (cfg : Config) (load : String → LoadResult) (pkg : Package) (q : Ident) :
    Option String :=
  match lookupUse pkg.uses q with
  | some ⟨_, _, .pkgName D⟩ =>
    if D ∈ pkg.imports ∧ inlines cfg D = true then
      match (load D).pkgs with
      | dep :: _ => some dep.name
      | [] => none
    else none
  | _ => none

/-- The text expected for a tree of package `pkg`, written after the words of
the specification: a selector whose qualifier stands for an inlined module
prints as the unqualified identifier `<short name>_<selected name>`, everything
else prints as it stands in `pkg`. -/
def printInlined (cfg : Config) (load : String → LoadResult) (pkg : Package) : Node → String
  | .ident id => pkg.names id
  | .selector x sel =>
    match x with
    | .ident q =>
      match resolveImport cfg load pkg q with
      | some depName => depName ++ "_" ++ pkg.names sel
      | none => pkg.names q ++ "." ++ pkg.names sel
    | _ => printInlined cfg load pkg x ++ "." ++ pkg.names sel
  | .lit t => t
  | .seq l r => printInlined cfg load pkg l ++ printInlined cfg load pkg r

/-- The expected emission of the declarations of a file, written after the
words of the specification: the text `render` gives for each declaration that
is no import declaration, preceded by the comments between the previous
declaration and this one, followed by the comment on the line on which it ends
and by a blank line. -/
def emitDecls (render : Node → String) (f : File) : List Decl → Buffer → Nat → Buffer × Nat
  | [], out, last => (out, last)
  | decl :: rest, out, last =>
    if decl.isImportDecl then emitDecls render f rest out last
    else
      let out1 := printComments out f.comments last (sourceRange decl).1
      let out2 : Buffer := { out1 with text := out1.text ++ render decl.body }
      let picked := printSameLineComment out2 f.line f.comments (sourceRange decl).2
      let out4 : Buffer := { picked.1 with text := picked.1.text ++ "\n\n" }
      emitDecls render f rest out4 picked.2

/-- The expected emission of a file: its declarations, then the comments
behind the last one. -/
def emitFile (render : Node → String) (f : File) (out : Buffer) : Buffer :=
  printLastComments (emitDecls render f f.decls out (initialLast f)).1 f.comments
    (emitDecls render f f.decls out (initialLast f)).2

/-- The expected emission of a list of files. -/
def emitFiles (render : Node → String) : List File → Buffer → Buffer
  | [], out => out
  | f :: fs, out => emitFiles render fs (emitFile render f out)

/-- The expected emission of a package: its files, with every reference to an
inlined module printed as the unqualified renamed identifier. -/
def emitInlined (cfg : Config) (load : String → LoadResult) (pkg : Package) (out : Buffer) :
    Buffer :=
  emitFiles (printInlined cfg load pkg) pkg.syntax_ out

/-- The expected emission of a list of packages, in order. -/
def emitAllInlined (cfg : Config) (load : String → LoadResult) : Buffer → List Package → Buffer
  | out, [] => out
  | out, p :: ps => emitAllInlined cfg load (emitInlined cfg load p out) ps

/-- The names of a loaded package are Go identifiers and its tokens Go source
without the character `@`: the package name, the name of every identifier
node, the name of every object of the definition and use maps, and every token. -/
structure Hygienic (pkg : Package) : Prop where
  nameClean : '@' ∉ pkg.name.data
  identsClean : ∀ j, '@' ∉ (pkg.names j).data
  defsClean : ∀ o ∈ pkg.defs.filterMap Prod.snd, '@' ∉ o.name.data
  usesClean : ∀ x ∈ pkg.uses, '@' ∉ x.2.name.data
  litsClean : ∀ t ∈ (pkgTree pkg).lits, '@' ∉ t.data

/-- The names `names` are those of package `pkg` after the rewriting of the
references to inlined modules, at every node of the tree: the qualifier of a
selector that stands for an inlined module is the sentinel and the selected
identifier carries the short name of the module as prefix, every other
identifier has the name it has in `pkg`, and apart from the sentinel no name
and no token holds the character `@`. -/
def NamesResolved (cfg : Config) (load : String → LoadResult) (pkg : Package)
    (names : Ident → String) : Node → Prop
  | .ident id => names id = pkg.names id ∧ '@' ∉ (pkg.names id).data
  | .selector x sel =>
    match x with
    | .ident q =>
      match resolveImport cfg load pkg q with
      | some depName =>
        names q = "@@@" ∧ names sel = depName ++ "_" ++ pkg.names sel ∧
          '@' ∉ (depName ++ "_" ++ pkg.names sel).data
      | none =>
        (names q = pkg.names q ∧ '@' ∉ (pkg.names q).data) ∧
          names sel = pkg.names sel ∧ '@' ∉ (pkg.names sel).data
    | _ =>
      NamesResolved cfg load pkg names x ∧ names sel = pkg.names sel ∧
        '@' ∉ (pkg.names sel).data
  | .lit t => '@' ∉ t.data
  | .seq l r => NamesResolved cfg load pkg names l ∧ NamesResolved cfg load pkg names r

/-- The emitted package `M` is the package `M0` the walker started on, with
its references to inlined modules rewritten: `M0` is a loaded package (the
root) or a loaded package after its renaming; the emitter writes for `M`, into
any buffer, the expected emission of `M0`; and for every import `D` of `M0`
that is classified Inline and resolves to the module `dep`, and every selector
`q.s` of `M0` whose qualifier resolves through the use map to the import of
`D`: the qualifier carries the sentinel, the selected identifier is named
`<dep.name>_<selected name>`, that unqualified identifier is the expected text
of the selector and the text of the printed selector once `@@@.` is stripped,
and it is the name under which the renamer emits the declaration of `dep` for
the symbol of that name. -/
def RewrittenFrom (cfg : Config) (load : String → LoadResult) (M M0 : Package) : Prop :=
  (∃ p, OriginAt load p M0) ∧ M.syntax_ = M0.syntax_ ∧ M.uses = M0.uses ∧
  (∀ out, writeFilesToOutput M out = emitInlined cfg load M0 out) ∧
  ∀ D dep q s, D ∈ M0.imports → inlines cfg D = true →
    (load D).pkgs.head? = some dep →
    (q, s) ∈ pkgSelectors M0 → ImportsPkg M0.uses q D →
    M.names q = "@@@" ∧ M.names s = dep.name ++ "_" ++ M0.names s ∧
    printInlined cfg load M0 (.selector (.ident q) s) = dep.name ++ "_" ++ M0.names s ∧
    bytesReplace (printNode M.names (.selector (.ident q) s)) "@@@." "" =
      dep.name ++ "_" ++ M0.names s ∧
    (InfoWF dep → ∀ d o, (d, some o) ∈ dep.defs → o ∈ dep.scope →
      o.name = M0.names s → renamedName dep d = some (M.names s))

/-! ## Module loader -/

/-- C8 (counterexample): when resolution yields two modules and no error,
`loadFilesOfPackage` does not fail: it returns the first of them. -/
theorem loadFilesOfPackage_ambiguous_returns :
    (ambiguousLoad "github.com/acme/d").pkgs.length = 2 ∧
      loadedName (loadFilesOfPackage ambiguousLoad "github.com/acme/d") = some "d" := by
  decide

theorem loadFilesOfPackage_head (load : String → LoadResult) (src : String) :
    (∀ p, loadFilesOfPackage load src = .ok p ↔ (load src).pkgs.head? = some p) ∧
      (∀ e, loadFilesOfPackage load src = .error e ↔
        ((load src).pkgs = [] ∧ e = .indexOutOfRange)) := by
  unfold loadFilesOfPackage
  cases h : (load src).pkgs with
  | nil => simp; intro e; exact eq_comm
  | cons p rest => simp

/-- C8 (amended): `loadFilesOfPackage` returns a module exactly when resolution
yields at least one module, and then it is the first one, whatever the number
of modules and whether or not an error was reported; it fails, with the
index-out-of-range panic, exactly when resolution yields no module. -/
theorem loadFilesOfPackage_returns_first (load : String → LoadResult) (src : String) :
    (∀ p, loadFilesOfPackage load src = .ok p ↔ (load src).pkgs.head? = some p) ∧
      (∀ e, loadFilesOfPackage load src = .error e ↔
        ((load src).pkgs = [] ∧ e = .indexOutOfRange)) :=
  loadFilesOfPackage_head load src

/-! ## Output assembler -/

theorem writeImportLines_eq (out : String) (keys : List String) :
    writeImportLines out keys = out ++ concatAll (keys.map importLine) := by
  induction keys generalizing out with
  | nil => simp [writeImportLines, concatAll]
  | cons k ks ih =>
    simp only [writeImportLines, List.map_cons, concatAll, ih, importLine]
    simp [String.append_assoc]

/-- C9 (counterexample): for the kept-import set {fmt, os}, iterated as
`os, fmt`, `handleImports` writes `os` before `fmt`, which is not ascending
order, and the text differs from the one written for the iteration order
`fmt, os` of the same set. -/
theorem handleImports_follows_iteration_order :
    handleImports "" ["os", "fmt"] = "import (\n\"os\"\n\"fmt\"\n)\n\n" ∧
      handleImports "" ["os", "fmt"] ≠ handleImports "" ["fmt", "os"] := by
  decide

/-- C9 (amended): for every buffer and every kept-import set, `handleImports`
appends the line `import (`, then one line per key of the set, each path
double-quoted on its own line, in the order in which the map is iterated
(so every path exactly once, a map having no repeated key), then `)` and a
blank line. -/
theorem handleImports_writes_block (importsOut : String) (pkgStd : List String) :
    handleImports importsOut pkgStd =
      importsOut ++ "import (\n" ++ concatAll (pkgStd.map importLine) ++ ")\n\n" := by
  simp [handleImports, writeImportLines_eq]

/-! ## Symbol renamer -/

theorem setName_same (names : Ident → String) (id : Ident) (v : String) :
    setName names id v id = v := by
  simp [setName]

theorem setName_other (names : Ident → String) (id j : Ident) (v : String) (h : j ≠ id) :
    setName names id v j = names j := by
  simp [setName, h]

theorem renameDefs_untouched (objs : List Object) (pre : String)
    (defs : List (Ident × Option Object)) (names : Ident → String) (id : Ident)
    (h : ∀ o, (id, some o) ∈ defs → o ∉ objs) :
    renameDefs objs pre defs names id = names id := by
  induction defs generalizing names with
  | nil => rfl
  | cons d rest ih =>
    obtain ⟨k, v⟩ := d
    have hrest : ∀ o, (id, some o) ∈ rest → o ∉ objs :=
      fun o ho => h o (List.mem_cons_of_mem _ ho)
    cases v with
    | none => simpa [renameDefs] using ih names hrest
    | some obj =>
      by_cases hobj : obj ∈ objs
      · have hk : id ≠ k := by
          intro hk
          exact h obj (by simp [hk]) hobj
        simp only [renameDefs, hobj, if_true]
        rw [ih _ hrest, setName_other _ _ _ _ hk]
      · simp only [renameDefs, hobj, if_false]
        exact ih names hrest

theorem renameDefs_renamed (objs : List Object) (pre : String)
    (defs : List (Ident × Option Object)) (names : Ident → String) (id : Ident) (obj : Object)
    (hnd : (defs.map Prod.fst).Nodup) (hmem : (id, some obj) ∈ defs) (hobj : obj ∈ objs) :
    renameDefs objs pre defs names id = pre ++ obj.name := by
  induction defs generalizing names with
  | nil => simp at hmem
  | cons d rest ih =>
    obtain ⟨k, v⟩ := d
    simp only [List.map_cons, List.nodup_cons] at hnd
    rcases List.mem_cons.mp hmem with hhead | htail
    · have hk : k = id := by injection hhead with h1 _; exact h1.symm
      have hv : v = some obj := by injection hhead with _ h2; exact h2.symm
      subst hk; subst hv
      have hfree : ∀ o, (k, some o) ∈ rest → o ∉ objs := by
        intro o ho
        exact absurd (List.mem_map_of_mem Prod.fst ho) hnd.1
      simp only [renameDefs, hobj, if_true]
      rw [renameDefs_untouched _ _ _ _ _ hfree, setName_same]
    · cases v with
      | none => simpa [renameDefs] using ih names hnd.2 htail
      | some o =>
        by_cases ho : o ∈ objs
        · simp only [renameDefs, ho, if_true]
          exact ih _ hnd.2 htail
        · simp only [renameDefs, ho, if_false]
          exact ih _ hnd.2 htail

theorem renameUses_untouched (objs : List Object) (pre : String)
    (uses : List (Ident × Object)) (names : Ident → String) (id : Ident)
    (h : ∀ o, (id, o) ∈ uses → o ∉ objs) :
    renameUses objs pre uses names id = names id := by
  induction uses generalizing names with
  | nil => rfl
  | cons d rest ih =>
    obtain ⟨k, obj⟩ := d
    have hrest : ∀ o, (id, o) ∈ rest → o ∉ objs :=
      fun o ho => h o (List.mem_cons_of_mem _ ho)
    by_cases hobj : obj ∈ objs
    · have hk : id ≠ k := by
        intro hk
        exact h obj (by simp [hk]) hobj
      simp only [renameUses, hobj, if_true]
      rw [ih _ hrest, setName_other _ _ _ _ hk]
    · simp only [renameUses, hobj, if_false]
      exact ih names hrest

theorem renameUses_renamed (objs : List Object) (pre : String)
    (uses : List (Ident × Object)) (names : Ident → String) (id : Ident) (obj : Object)
    (hnd : (uses.map Prod.fst).Nodup) (hmem : (id, obj) ∈ uses) (hobj : obj ∈ objs) :
    renameUses objs pre uses names id = pre ++ obj.name := by
  induction uses generalizing names with
  | nil => simp at hmem
  | cons d rest ih =>
    obtain ⟨k, v⟩ := d
    simp only [List.map_cons, List.nodup_cons] at hnd
    rcases List.mem_cons.mp hmem with hhead | htail
    · have hk : k = id := by injection hhead with h1 _; exact h1.symm
      have hv : v = obj := by injection hhead with _ h2; exact h2.symm
      subst hk; subst hv
      have hfree : ∀ o, (k, o) ∈ rest → o ∉ objs := by
        intro o ho
        exact absurd (List.mem_map_of_mem Prod.fst ho) hnd.1
      simp only [renameUses, hobj, if_true]
      rw [renameUses_untouched _ _ _ _ _ hfree, setName_same]
    · by_cases ho : v ∈ objs
      · simp only [renameUses, ho, if_true]
        exact ih _ hnd.2 htail
      · simp only [renameUses, ho, if_false]
        exact ih _ hnd.2 htail

/-- Names after `renamePackageDeclarations` at an identifier of the definition map. -/
theorem rename_def_name (pkg : Package) (objs : List Object) (pre : String)
    (hdefs : (pkg.defs.map Prod.fst).Nodup) (huses : (pkg.uses.map Prod.fst).Nodup)
    (hsame : ∀ id o1 o2, (id, some o1) ∈ pkg.defs → (id, o2) ∈ pkg.uses →
      o1 ∈ objs → o2 ∈ objs → o1.name = o2.name)
    (id : Ident) (obj : Object) (hmem : (id, some obj) ∈ pkg.defs) (hobj : obj ∈ objs) :
    (renamePackageDeclarations pkg objs pre).names id = pre ++ obj.name := by
  show renameUses objs pre pkg.uses (renameDefs objs pre pkg.defs pkg.names) id = _
  by_cases hu : ∃ o, (id, o) ∈ pkg.uses ∧ o ∈ objs
  · obtain ⟨o, ho, hoo⟩ := hu
    rw [renameUses_renamed _ _ _ _ _ _ huses ho hoo, hsame id obj o hmem ho hobj hoo]
  · have hfree : ∀ o, (id, o) ∈ pkg.uses → o ∉ objs := fun o ho hoo => hu ⟨o, ho, hoo⟩
    rw [renameUses_untouched _ _ _ _ _ hfree]
    exact renameDefs_renamed _ _ _ _ _ _ hdefs hmem hobj

/-- Names after `renamePackageDeclarations` at an identifier of the use map. -/
theorem rename_use_name (pkg : Package) (objs : List Object) (pre : String)
    (huses : (pkg.uses.map Prod.fst).Nodup)
    (id : Ident) (obj : Object) (hmem : (id, obj) ∈ pkg.uses) (hobj : obj ∈ objs) :
    (renamePackageDeclarations pkg objs pre).names id = pre ++ obj.name :=
  renameUses_renamed _ _ _ _ _ _ huses hmem hobj

/-- A second application of the renamer writes the names that are there. -/
theorem rename_twice (pkg : Package) (objs : List Object) (pre : String)
    (hdefs : (pkg.defs.map Prod.fst).Nodup) (huses : (pkg.uses.map Prod.fst).Nodup) :
    (renamePackageDeclarations (renamePackageDeclarations pkg objs pre) objs pre).names =
      (renamePackageDeclarations pkg objs pre).names := by
  funext id
  show renameUses objs pre pkg.uses (renameDefs objs pre pkg.defs
      (renameUses objs pre pkg.uses (renameDefs objs pre pkg.defs pkg.names))) id =
    renameUses objs pre pkg.uses (renameDefs objs pre pkg.defs pkg.names) id
  by_cases hu : ∃ o, (id, o) ∈ pkg.uses ∧ o ∈ objs
  · obtain ⟨o, ho, hoo⟩ := hu
    rw [renameUses_renamed _ _ _ _ _ _ huses ho hoo, renameUses_renamed _ _ _ _ _ _ huses ho hoo]
  · have hfree : ∀ o, (id, o) ∈ pkg.uses → o ∉ objs := fun o ho hoo => hu ⟨o, ho, hoo⟩
    rw [renameUses_untouched _ _ _ _ _ hfree, renameUses_untouched _ _ _ _ _ hfree]
    by_cases hd : ∃ o, (id, some o) ∈ pkg.defs ∧ o ∈ objs
    · obtain ⟨o, ho, hoo⟩ := hd
      rw [renameDefs_renamed _ _ _ _ _ _ hdefs ho hoo, renameDefs_renamed _ _ _ _ _ _ hdefs ho hoo]
    · have hfreed : ∀ o, (id, some o) ∈ pkg.defs → o ∉ objs := fun o ho hoo => hd ⟨o, ho, hoo⟩
      rw [renameDefs_untouched _ _ _ _ _ hfreed, renameUses_untouched _ _ _ _ _ hfree]

/-- C4: for every module, every symbol set `objs` and every prefix `pre`, after
`renamePackageDeclarations` every identifier recorded in the definition map or
in the use map whose resolved symbol is in `objs` has the name `pre` followed
by the symbol's own name, and renaming a second time changes no name.  The
module is well formed: neither map has a repeated key, and an identifier that
is a key of both maps (an embedded field) resolves in both to symbols of the
same name. -/
theorem renamePackageDeclarations_total (pkg : Package) (objs : List Object) (pre : String)
    (hdefs : (pkg.defs.map Prod.fst).Nodup) (huses : (pkg.uses.map Prod.fst).Nodup)
    (hsame : ∀ id o1 o2, (id, some o1) ∈ pkg.defs → (id, o2) ∈ pkg.uses →
      o1 ∈ objs → o2 ∈ objs → o1.name = o2.name) :
    (∀ id obj, (id, some obj) ∈ pkg.defs → obj ∈ objs →
        (renamePackageDeclarations pkg objs pre).names id = pre ++ obj.name) ∧
      (∀ id obj, (id, obj) ∈ pkg.uses → obj ∈ objs →
        (renamePackageDeclarations pkg objs pre).names id = pre ++ obj.name) ∧
      (renamePackageDeclarations (renamePackageDeclarations pkg objs pre) objs pre).names =
        (renamePackageDeclarations pkg objs pre).names :=
  ⟨fun id obj hmem hobj => rename_def_name pkg objs pre hdefs huses hsame id obj hmem hobj,
   fun id obj hmem hobj => rename_use_name pkg objs pre huses id obj hmem hobj,
   rename_twice pkg objs pre hdefs huses⟩

/-! ## Symbol collision resolver -/

theorem unvisited_mono (pkg : Package) (a b : List Object) (h : ∀ o ∈ a, o ∈ b) :
    unvisited pkg b ≤ unvisited pkg a := by
  unfold unvisited
  apply Finset.card_le_card
  intro x hx
  simp only [Finset.mem_sdiff, List.mem_toFinset] at hx ⊢
  exact ⟨hx.1, fun hxa => hx.2 (h x hxa)⟩

theorem unvisited_cons_lt (pkg : Package) (objs : List Object) (src : Object)
    (hm : src ∈ mentioned pkg) (hn : src ∉ objs) :
    unvisited pkg (src :: objs) < unvisited pkg objs := by
  unfold unvisited
  apply Finset.card_lt_card
  rw [Finset.ssubset_iff_of_subset]
  · refine ⟨src, ?_, ?_⟩
    · simp [hm, hn]
    · simp
  · intro x hx
    simp only [Finset.mem_sdiff, List.mem_toFinset, List.mem_cons, not_or] at hx ⊢
    exact ⟨hx.1, hx.2.2⟩

theorem unvisited_nil_lt_fuel (pkg : Package) : unvisited pkg [] < traverseFuel pkg := by
  unfold unvisited traverseFuel
  have h1 : ((mentioned pkg).toFinset \ ([] : List Object).toFinset).card ≤
      (mentioned pkg).toFinset.card := Finset.card_le_card Finset.sdiff_subset
  have h2 : (mentioned pkg).toFinset.card ≤ (mentioned pkg).length := List.toFinset_card_le _
  have h3 : (mentioned pkg).length ≤ pkg.scope.length + pkg.defs.length := by
    unfold mentioned
    rw [List.length_append]
    exact Nat.add_le_add_left (List.length_filterMap_le _ _) _
  omega

theorem lookupDef_mem (defs : List (Ident × Option Object)) (id : Ident) (F : Object)
    (h : lookupDef defs id = some F) : (id, some F) ∈ defs := by
  induction defs with
  | nil => simp [lookupDef] at h
  | cons d rest ih =>
    obtain ⟨k, v⟩ := d
    by_cases hk : k = id
    · simp only [lookupDef, hk, if_true] at h
      simp [hk, h]
    · simp only [lookupDef, hk, if_false] at h
      exact List.mem_cons_of_mem _ (ih h)

theorem lookupDef_mentioned (pkg : Package) (id : Ident) (F : Object)
    (h : lookupDef pkg.defs id = some F) : F ∈ mentioned pkg := by
  unfold mentioned
  apply List.mem_append_right
  rw [List.mem_filterMap]
  exact ⟨(id, some F), lookupDef_mem _ _ _ h, rfl⟩

theorem reach_mono (pkg : Package) (r1 r2 : Object → Prop) (h : ∀ o, r1 o → Reach pkg r2 o)
    (o : Object) (ho : Reach pkg r1 o) : Reach pkg r2 o := by
  induction ho with
  | root o hr => exact h o hr
  | step S F _ he ih => exact Reach.step S F ih he

theorem grows_refl (pkg : Package) (reach : Object → Prop) (objs : List Object) :
    Grows pkg reach objs objs :=
  ⟨fun _ h => h, fun _ h => Or.inl h, fun _ hS hn => absurd hS hn⟩

theorem grows_trans (pkg : Package) (reach : Object → Prop) (a b c : List Object)
    (hab : Grows pkg reach a b) (hbc : Grows pkg reach b c) : Grows pkg reach a c := by
  refine ⟨fun o h => hbc.1 o (hab.1 o h), ?_, ?_⟩
  · intro o ho
    rcases hbc.2.1 o ho with hb | hr
    · exact hab.2.1 o hb
    · exact Or.inr hr
  · intro S hS hn F hE
    by_cases hb : S ∈ b
    · exact hbc.1 F (hab.2.2 S hb hn F hE)
    · exact hbc.2.2 S hS hb F hE

theorem grows_weaken (pkg : Package) (r1 r2 : Object → Prop) (a b : List Object)
    (h : ∀ o, r1 o → r2 o) (hab : Grows pkg r1 a b) : Grows pkg r2 a b :=
  ⟨hab.1, fun o ho => (hab.2.1 o ho).imp id (h o), hab.2.2⟩

theorem traverseUses_spec (pkg : Package)
    (recur : List Object → Object → Except Fault (List Object)) (src : Object) (n : Nat)
    (hrec : ∀ objs F, F ∈ mentioned pkg → unvisited pkg objs < n →
      ∃ objs1, recur objs F = .ok objs1 ∧ Grows pkg (Reach pkg (· = F)) objs objs1 ∧ F ∈ objs1)
    (hkind : src.kind = .typeName)
    (uses : List (Ident × Object)) (hsub : ∀ x ∈ uses, x ∈ pkg.uses)
    (objs : List Object) (hlt : unvisited pkg objs < n) :
    ∃ objs1, traverseUses recur pkg.defs src uses objs = .ok objs1 ∧
      Grows pkg (Reach pkg (· = src)) objs objs1 ∧
      ∀ id F, (id, src) ∈ uses → lookupDef pkg.defs id = some F → F ∈ objs1 := by
  induction uses generalizing objs with
  | nil =>
    exact ⟨objs, rfl, grows_refl _ _ _, fun id F h => by simp at h⟩
  | cons u rest ih =>
    obtain ⟨id0, obj⟩ := u
    have hrest : ∀ x ∈ rest, x ∈ pkg.uses := fun x hx => hsub x (List.mem_cons_of_mem _ hx)
    by_cases hobj : obj = src
    · subst hobj
      cases hl : lookupDef pkg.defs id0 with
      | none =>
        obtain ⟨objs1, h1, h2, h3⟩ := ih hrest objs hlt
        refine ⟨objs1, ?_, h2, ?_⟩
        · simp only [traverseUses, if_true, hl]; exact h1
        · intro id F hmem hF
          rcases List.mem_cons.mp hmem with hh | ht
          · have : id = id0 := by injection hh
            subst this
            rw [hl] at hF; cases hF
          · exact h3 id F ht hF
      | some field =>
        obtain ⟨objs1, hr1, hg1, hf1⟩ := hrec objs field (lookupDef_mentioned pkg id0 field hl) hlt
        have hlt1 : unvisited pkg objs1 < n :=
          lt_of_le_of_lt (unvisited_mono pkg objs objs1 hg1.1) hlt
        obtain ⟨objs2, h1, h2, h3⟩ := ih hrest objs1 hlt1
        have hedge : Edge pkg obj field :=
          ⟨hkind, id0, hsub _ (List.mem_cons_self _ _), hl⟩
        have hg1' : Grows pkg (Reach pkg (· = obj)) objs objs1 := by
          apply grows_weaken pkg _ _ _ _ _ hg1
          intro o ho
          apply reach_mono pkg _ _ _ o ho
          intro o' ho'
          subst ho'
          exact Reach.step obj _ (Reach.root obj rfl) hedge
        refine ⟨objs2, ?_, grows_trans _ _ _ _ _ hg1' h2, ?_⟩
        · simp only [traverseUses, if_true, hl, hr1]; exact h1
        · intro id F hmem hF
          rcases List.mem_cons.mp hmem with hh | ht
          · have : id = id0 := by injection hh
            subst this
            rw [hl] at hF
            injection hF with hF
            subst hF
            exact h2.1 _ hf1
          · exact h3 id F ht hF
    · obtain ⟨objs1, h1, h2, h3⟩ := ih hrest objs hlt
      refine ⟨objs1, ?_, h2, ?_⟩
      · simp only [traverseUses, hobj, if_false]; exact h1
      · intro id F hmem hF
        rcases List.mem_cons.mp hmem with hh | ht
        · exact absurd (by injection hh with _ h2; exact h2.symm) hobj
        · exact h3 id F ht hF

theorem traverse_spec (pkg : Package) (fuel : Nat) :
    ∀ objs src, src ∈ mentioned pkg → unvisited pkg objs < fuel →
      ∃ objs1, traverse pkg fuel objs src = .ok objs1 ∧
        Grows pkg (Reach pkg (· = src)) objs objs1 ∧ src ∈ objs1 := by
  induction fuel with
  | zero => intro objs src _ h; exact absurd h (Nat.not_lt_zero _)
  | succ fuel ih =>
    intro objs src hm hlt
    by_cases hin : src ∈ objs
    · exact ⟨objs, by simp [traverse, hin], grows_refl _ _ _, hin⟩
    · have hlt1 : unvisited pkg (src :: objs) < fuel := by
        have := unvisited_cons_lt pkg objs src hm hin
        omega
      by_cases hk : src.kind = .typeName
      · obtain ⟨objs1, h1, h2, h3⟩ :=
          traverseUses_spec pkg (traverse pkg fuel) src fuel ih hk pkg.uses (fun _ h => h)
            (src :: objs) hlt1
        refine ⟨objs1, by simp [traverse, hin, hk, h1], ⟨?_, ?_, ?_⟩, h2.1 _ (List.mem_cons_self _ _)⟩
        · exact fun o ho => h2.1 o (List.mem_cons_of_mem _ ho)
        · intro o ho
          rcases h2.2.1 o ho with hc | hr
          · rcases List.mem_cons.mp hc with he | ht
            · exact Or.inr (by rw [he]; exact Reach.root src rfl)
            · exact Or.inl ht
          · exact Or.inr hr
        · intro S hS hn F hE
          by_cases hc : S ∈ src :: objs
          · rcases List.mem_cons.mp hc with he | ht
            · subst he
              obtain ⟨_, id, hid, hF⟩ := hE
              exact h3 id F hid hF
            · exact absurd ht hn
          · exact h2.2.2 S hS hc F hE
      · refine ⟨src :: objs, by simp [traverse, hin, hk], ⟨?_, ?_, ?_⟩, List.mem_cons_self _ _⟩
        · exact fun o ho => List.mem_cons_of_mem _ ho
        · intro o ho
          rcases List.mem_cons.mp ho with he | ht
          · exact Or.inr (by rw [he]; exact Reach.root src rfl)
          · exact Or.inl ht
        · intro S hS hn F hE
          rcases List.mem_cons.mp hS with he | ht
          · subst he; exact absurd hE.1 hk
          · exact absurd ht hn

theorem traverseScope_spec (pkg : Package) (fuel : Nat) (scope : List Object)
    (hsub : ∀ o ∈ scope, o ∈ pkg.scope) (objs : List Object)
    (hlt : unvisited pkg objs < fuel) :
    ∃ objs1, traverseScope pkg fuel scope objs = .ok objs1 ∧
      Grows pkg (Reach pkg (· ∈ pkg.scope)) objs objs1 ∧ ∀ o ∈ scope, o ∈ objs1 := by
  induction scope generalizing objs with
  | nil => exact ⟨objs, rfl, grows_refl _ _ _, fun o h => by simp at h⟩
  | cons o rest ih =>
    have ho : o ∈ pkg.scope := hsub o (List.mem_cons_self _ _)
    have hm : o ∈ mentioned pkg := List.mem_append_left _ ho
    obtain ⟨objs1, h1, h2, h3⟩ := traverse_spec pkg fuel objs o hm hlt
    have hlt1 : unvisited pkg objs1 < fuel :=
      lt_of_le_of_lt (unvisited_mono pkg objs objs1 h2.1) hlt
    obtain ⟨objs2, g1, g2, g3⟩ :=
      ih (fun x hx => hsub x (List.mem_cons_of_mem _ hx)) objs1 hlt1
    have h2' : Grows pkg (Reach pkg (· ∈ pkg.scope)) objs objs1 := by
      apply grows_weaken pkg _ _ _ _ _ h2
      intro x hx
      apply reach_mono pkg _ _ _ x hx
      intro y hy
      exact Reach.root y (hy ▸ ho)
    refine ⟨objs2, by simp [traverseScope, h1, g1], grows_trans _ _ _ _ _ h2' g2, ?_⟩
    intro x hx
    rcases List.mem_cons.mp hx with he | ht
    · exact he ▸ g2.1 _ h3
    · exact g3 x ht

/-- The result of `getObjectsToUpdate`: it returns, and the set is exactly the
objects reached from the package scope. -/
theorem getObjectsToUpdate_reach (pkg : Package) :
    ∃ objs, getObjectsToUpdate pkg = .ok objs ∧
      ∀ o, o ∈ objs ↔ Reach pkg (· ∈ pkg.scope) o := by
  obtain ⟨objs, h1, h2, h3⟩ :=
    traverseScope_spec pkg (traverseFuel pkg) pkg.scope (fun _ h => h) []
      (unvisited_nil_lt_fuel pkg)
  refine ⟨objs, h1, fun o => ⟨fun ho => ?_, fun ho => ?_⟩⟩
  · rcases h2.2.1 o ho with hn | hr
    · simp at hn
    · exact hr
  · induction ho with
    | root o hr => exact h3 o hr
    | step S F _ hE ih => exact h2.2.2 S ih (by simp) F hE

/-- C6: for every loaded module, `getObjectsToUpdate` returns, and what it
returns is the least set of symbols that contains every object of the
package scope and is closed under the rule: if a named type `S` is in the
set, an identifier of the use map resolves to `S` and the definition map
records a declared object `F` for that identifier, then `F` is in the set. -/
theorem getObjectsToUpdate_least_closed (pkg : Package) :
    ∃ objs, getObjectsToUpdate pkg = .ok objs ∧
      ClosedSet pkg (· ∈ objs) ∧
      ∀ s : Object → Prop, ClosedSet pkg s → ∀ o ∈ objs, s o := by
  obtain ⟨objs, h1, h2⟩ := getObjectsToUpdate_reach pkg
  refine ⟨objs, h1, ⟨?_, ?_⟩, ?_⟩
  · exact fun o ho => (h2 o).mpr (Reach.root o ho)
  · exact fun S F hS hE => (h2 F).mpr (Reach.step S F ((h2 S).mp hS) hE)
  · intro s hs o ho
    have hr := (h2 o).mp ho
    induction hr with
    | root o hr => exact hs.1 o hr
    | step S F hSr hE ih => exact hs.2 S F (ih ((h2 S).mpr hSr)) hE

/-! ## Source emitter: the comment passes -/

theorem printComments_log (out : Buffer) (comments : List CommentGroup) (pos end_ : Nat) :
    (printComments out comments pos end_).log =
      out.log ++ comments.filter (fun cg => decide (pos ≤ cg.pos ∧ cg.pos < end_)) := by
  induction comments generalizing out with
  | nil => simp [printComments]
  | cons c rest ih =>
    by_cases h : pos ≤ c.pos ∧ c.pos < end_
    · simp only [printComments, h, and_self, if_true, ih, List.filter_cons, decide_True]
      simp
    · simp only [printComments, h, if_false, ih, List.filter_cons, decide_False]
      simp

theorem printSameLineComment_log (out : Buffer) (line : Nat → Nat)
    (comments : List CommentGroup) (pos : Nat) :
    (printSameLineComment out line comments pos).1.log =
        out.log ++ (sameLinePick line comments pos).toList ∧
      (printSameLineComment out line comments pos).2 = sameLineLast line comments pos := by
  induction comments with
  | nil => simp [printSameLineComment, sameLinePick, sameLineLast]
  | cons c rest ih =>
    by_cases h : pos ≤ c.pos ∧ line c.pos = line pos
    · simp [printSameLineComment, sameLinePick, sameLineLast, h]
    · have ih1 := ih.1
      have ih2 := ih.2
      simp only [sameLinePick, sameLineLast] at ih1 ih2
      simp only [printSameLineComment, sameLinePick, sameLineLast, h, if_false,
        List.find?_cons, decide_False]
      exact ⟨ih1, ih2⟩

theorem writeDecls_log (names : Ident → String) (f : File) (ds : List Decl) (out : Buffer)
    (last : Nat) :
    (printLastComments (writeDecls names f ds out last).1 f.comments
        (writeDecls names f ds out last).2).log = out.log ++ commentLog f ds last := by
  induction ds generalizing out last with
  | nil => simp [writeDecls, commentLog, printLastComments, printComments_log]
  | cons d rest ih =>
    by_cases himp : d.isImportDecl = true
    · simp only [writeDecls, commentLog, himp, if_true]
      exact ih out last
    · have himp1 : d.isImportDecl = false := by simpa using himp
      simp only [writeDecls, commentLog, himp1, Bool.false_eq_true, if_false]
      rw [ih]
      simp only [(printSameLineComment_log _ _ _ _).1, (printSameLineComment_log _ _ _ _).2,
        printComments_log, List.append_assoc]

/-- The comment groups one file adds to the log of the buffer. -/
theorem writeFile_log (names : Ident → String) (f : File) (out : Buffer) :
    (writeFile names f out).log = out.log ++ commentLog f f.decls (initialLast f) := by
  unfold writeFile
  exact writeDecls_log names f f.decls out (initialLast f)

theorem sameLinePick_some (line : Nat → Nat) (cs : List CommentGroup) (pos : Nat)
    (x : CommentGroup) (h : sameLinePick line cs pos = some x) :
    x ∈ cs ∧ pos ≤ x.pos ∧ line x.pos = line pos := by
  unfold sameLinePick at h
  have h1 := List.mem_of_find?_eq_some h
  have h2 := List.find?_some h
  simp only [decide_eq_true_eq] at h2
  exact ⟨h1, h2.1, h2.2⟩

/-- A comment group that starts at or after `pos` but is not the one picked for
`pos` lies behind the picked one. -/
theorem sameLinePick_before (line : Nat → Nat) (hline : ∀ p q, p ≤ q → line p ≤ line q)
    (cs : List CommentGroup) (hs : cs.Pairwise (fun a b => a.endPos ≤ b.pos))
    (hne : ∀ c ∈ cs, c.pos < c.endPos) (pos : Nat) (x y : CommentGroup)
    (hx : sameLinePick line cs pos = some x) (hy : y ∈ cs) (hxy : y ≠ x) (hpos : pos ≤ y.pos) :
    x.endPos ≤ y.pos := by
  induction cs with
  | nil => simp at hy
  | cons c rest ih =>
    rw [List.pairwise_cons] at hs
    by_cases hc : pos ≤ c.pos ∧ line c.pos = line pos
    · have hxc : x = c := by
        simp only [sameLinePick, List.find?_cons, hc, and_self, decide_True] at hx
        injection hx with hx; exact hx.symm
      subst hxc
      rcases List.mem_cons.mp hy with he | ht
      · exact absurd he hxy
      · exact hs.1 y ht
    · have hx1 : sameLinePick line rest pos = some x := by
        simp only [sameLinePick, List.find?_cons, hc, decide_False] at hx
        exact hx
      rcases List.mem_cons.mp hy with he | ht
      · subst he
        have hxr := sameLinePick_some line rest pos x hx1
        have h1 : y.endPos ≤ x.pos := hs.1 x hxr.1
        have h2 : y.pos < y.endPos := hne y (List.mem_cons_self _ _)
        have h3 : line pos ≤ line y.pos := hline _ _ hpos
        have h4 : line y.pos ≤ line x.pos := hline _ _ (by omega)
        have h5 := hxr.2.2
        exact absurd ⟨hpos, by omega⟩ hc
      · exact ih hs.2 (fun c hc => hne c (List.mem_cons_of_mem _ hc)) hx1 ht

theorem sameLineLast_ge (line : Nat → Nat) (cs : List CommentGroup)
    (hne : ∀ c ∈ cs, c.pos < c.endPos) (pos : Nat) : pos ≤ sameLineLast line cs pos := by
  cases hp : sameLinePick line cs pos with
  | none => simp [sameLineLast, hp]
  | some x =>
    have hx := sameLinePick_some line cs pos x hp
    have := hne x hx.1
    simp only [sameLineLast, hp]
    omega

theorem commentLog_mem (f : File) (hne : ∀ c ∈ f.comments, c.pos < c.endPos)
    (ds : List Decl) (last : Nat) (x : CommentGroup) (hx : x ∈ commentLog f ds last) :
    x ∈ f.comments ∧
      (last ≤ x.pos ∨ ∃ d ∈ ds, d.isImportDecl = false ∧ (sourceRange d).2 ≤ x.pos) := by
  induction ds generalizing last with
  | nil =>
    simp only [commentLog, List.mem_filter, decide_eq_true_eq] at hx
    exact ⟨hx.1, Or.inl hx.2.1⟩
  | cons d rest ih =>
    by_cases himp : d.isImportDecl = true
    · simp only [commentLog, himp, if_true] at hx
      obtain ⟨h1, h2⟩ := ih last hx
      refine ⟨h1, h2.imp id ?_⟩
      rintro ⟨d1, hd1, hd2⟩
      exact ⟨d1, List.mem_cons_of_mem _ hd1, hd2⟩
    · have himp1 : d.isImportDecl = false := by simpa using himp
      simp only [commentLog, himp1, Bool.false_eq_true, if_false, List.mem_append,
        List.mem_filter, decide_eq_true_eq] at hx
      rcases hx with (hA | hB) | hC
      · exact ⟨hA.1, Or.inl hA.2.1⟩
      · have hB1 : sameLinePick f.line f.comments (sourceRange d).2 = some x := by
          simpa [Option.mem_toList] using hB
        have hp := sameLinePick_some _ _ _ _ hB1
        exact ⟨hp.1, Or.inr ⟨d, List.mem_cons_self _ _, himp1, hp.2.1⟩⟩
      · obtain ⟨h1, h2⟩ := ih _ hC
        refine ⟨h1, Or.inr ?_⟩
        rcases h2 with h2 | ⟨d1, hd1, hd2⟩
        · exact ⟨d, List.mem_cons_self _ _, himp1,
            le_trans (sameLineLast_ge f.line f.comments hne _) h2⟩
        · exact ⟨d1, List.mem_cons_of_mem _ hd1, hd2⟩

theorem comments_nodup (cs : List CommentGroup)
    (hs : cs.Pairwise (fun a b => a.endPos ≤ b.pos)) (hne : ∀ c ∈ cs, c.pos < c.endPos) :
    cs.Nodup := by
  induction cs with
  | nil => exact List.nodup_nil
  | cons c rest ih =>
    rw [List.pairwise_cons] at hs
    rw [List.nodup_cons]
    refine ⟨fun hc => ?_, ih hs.2 (fun c hc => hne c (List.mem_cons_of_mem _ hc))⟩
    have h1 : c.endPos ≤ c.pos := hs.1 c hc
    have h2 := hne c (List.mem_cons_self _ _)
    omega

theorem count_filter_window (cs : List CommentGroup) (hnd : cs.Nodup) (cg : CommentGroup)
    (hcg : cg ∈ cs) (lo hi : Nat) :
    List.count cg (cs.filter (fun c => decide (lo ≤ c.pos ∧ c.pos < hi))) =
      if lo ≤ cg.pos ∧ cg.pos < hi then 1 else 0 := by
  by_cases h : lo ≤ cg.pos ∧ cg.pos < hi
  · rw [if_pos h, List.count_filter (by simpa using h)]
    exact List.count_eq_one_of_mem hnd hcg
  · rw [if_neg h, List.count_eq_zero]
    intro hm
    rw [List.mem_filter] at hm
    exact h (by simpa using hm.2)

theorem commentLog_count (f : File)
    (hs : f.comments.Pairwise (fun a b => a.endPos ≤ b.pos))
    (hne : ∀ c ∈ f.comments, c.pos < c.endPos)
    (hline : ∀ p q, p ≤ q → f.line p ≤ f.line q)
    (cg : CommentGroup) (hcg : cg ∈ f.comments) (hinf : cg.pos < infinity)
    (ds : List Decl) (last : Nat)
    (hr : ∀ d ∈ ds, d.isImportDecl = false → (sourceRange d).1 ≤ (sourceRange d).2)
    (hd : (ds.filter (fun d => !d.isImportDecl)).Pairwise (EndsBefore f))
    (hlast : last ≤ cg.pos)
    (hout : ∀ d ∈ ds, d.isImportDecl = false →
      cg.pos < (sourceRange d).1 ∨ (sourceRange d).2 ≤ cg.pos) :
    List.count cg (commentLog f ds last) = 1 := by
  have hnd := comments_nodup f.comments hs hne
  induction ds generalizing last with
  | nil =>
    simp only [commentLog]
    rw [count_filter_window _ hnd _ hcg, if_pos ⟨hlast, hinf⟩]
  | cons d rest ih =>
    have hr1 : ∀ d ∈ rest, d.isImportDecl = false → (sourceRange d).1 ≤ (sourceRange d).2 :=
      fun d1 h1 => hr d1 (List.mem_cons_of_mem _ h1)
    have hout1 : ∀ d ∈ rest, d.isImportDecl = false →
        cg.pos < (sourceRange d).1 ∨ (sourceRange d).2 ≤ cg.pos :=
      fun d1 h1 => hout d1 (List.mem_cons_of_mem _ h1)
    by_cases himp : d.isImportDecl = true
    · simp only [commentLog, himp, if_true]
      have hd1 : (rest.filter (fun d => !d.isImportDecl)).Pairwise (EndsBefore f) := by
        simpa [List.filter_cons, himp] using hd
      exact ih last hr1 hd1 hlast hout1
    · have himp1 : d.isImportDecl = false := by simpa using himp
      have hd0 : (d :: rest.filter (fun d => !d.isImportDecl)).Pairwise (EndsBefore f) := by
        simpa [List.filter_cons, himp1] using hd
      rw [List.pairwise_cons] at hd0
      obtain ⟨hdR, hd1⟩ := hd0
      have hbe := hr d (List.mem_cons_self _ _) himp1
      have hlater : ∀ d1 ∈ rest, d1.isImportDecl = false → EndsBefore f d d1 := by
        intro d1 h1 h2
        exact hdR d1 (by simp [List.mem_filter, h1, h2])
      simp only [commentLog, himp1, Bool.false_eq_true, if_false, List.count_append]
      rw [count_filter_window _ hnd _ hcg]
      rcases hout d (List.mem_cons_self _ _) himp1 with hA | hB
      · -- written by the pass before the declaration
        rw [if_pos ⟨hlast, hA⟩]
        have hB0 : List.count cg (sameLinePick f.line f.comments (sourceRange d).2).toList = 0 := by
          rw [List.count_eq_zero]
          intro hm
          have hm1 : sameLinePick f.line f.comments (sourceRange d).2 = some cg := by
            simpa [Option.mem_toList] using hm
          have := (sameLinePick_some _ _ _ _ hm1).2.1
          omega
        have hC0 : List.count cg
            (commentLog f rest (sameLineLast f.line f.comments (sourceRange d).2)) = 0 := by
          rw [List.count_eq_zero]
          intro hm
          rcases (commentLog_mem f hne rest _ cg hm).2 with h1 | ⟨d1, hd1m, hd1i, hd1e⟩
          · have := sameLineLast_ge f.line f.comments hne (sourceRange d).2
            omega
          · have := (hlater d1 hd1m hd1i).1
            omega
        omega
      · have hA0 : ¬(last ≤ cg.pos ∧ cg.pos < (sourceRange d).1) := by
          intro h; omega
        rw [if_neg hA0]
        cases hp : sameLinePick f.line f.comments (sourceRange d).2 with
        | none =>
          have hl : sameLineLast f.line f.comments (sourceRange d).2 = (sourceRange d).2 := by
            simp [sameLineLast, hp]
          rw [hl, ih _ hr1 hd1 hB hout1]
          simp
        | some x =>
          have hl : sameLineLast f.line f.comments (sourceRange d).2 = x.endPos := by
            simp [sameLineLast, hp]
          rw [hl]
          have hx := sameLinePick_some _ _ _ _ hp
          by_cases hxc : cg = x
          · subst hxc
            have hC0 : List.count cg (commentLog f rest cg.endPos) = 0 := by
              rw [List.count_eq_zero]
              intro hm
              rcases (commentLog_mem f hne rest _ cg hm).2 with h1 | ⟨d1, hd1m, hd1i, hd1e⟩
              · have := hne cg hcg
                omega
              · have := (hlater d1 hd1m hd1i).2 cg hcg hx.2.1 hx.2.2
                omega
            rw [hC0]
            simp
          · have hbefore := sameLinePick_before f.line hline f.comments hs hne
              (sourceRange d).2 x cg hp hcg hxc hB
            rw [ih _ hr1 hd1 hbefore hout1]
            have : List.count cg (some x).toList = 0 := by
              rw [List.count_eq_zero]
              simp only [Option.toList, List.mem_singleton]
              exact hxc
            omega

/-- C10 (counterexample): in `importFile` the line comment of the last import
starts after the end of that import and lies outside the source range of every
declaration, yet the comment passes of the emitter do not write it: the text
written for the file is the function declaration alone. -/
theorem writeFile_skips_import_comment :
    importComment ∈ importFile.comments ∧
      lastImportEnd importFile = some 20 ∧ 20 ≤ importComment.pos ∧
      (∀ d ∈ importFile.decls,
        importComment.pos < (sourceRange d).1 ∨ (sourceRange d).2 ≤ importComment.pos) ∧
      List.count importComment (writeFile (namesOf []) importFile ⟨"", []⟩).log = 0 ∧
      (writeFile (namesOf []) importFile ⟨"", []⟩).text = "func f() \x7b\x7d\n\n" := by
  decide

/-- C10 (amended): for every file whose comment groups and declarations are
listed in source order (`FileOrdered`), the comment passes of the emitter
(`printComments` before each emitted declaration, `printSameLineComment` after
it, `printLastComments` at the end) write exactly once every comment group
that starts at or after the initial position of the passes (the end of the
last import or of its line comment, whichever is later; the package clause in
a file without imports), starts below the constant `infinity`, and lies outside
the source range of every emitted declaration. -/
theorem writeFile_comment_once (names : Ident → String) (f : File) (out : Buffer)
    (cg : CommentGroup) (hf : FileOrdered f) (hcg : cg ∈ f.comments)
    (hstart : initialLast f ≤ cg.pos) (hinf : cg.pos < infinity)
    (hout : ∀ d ∈ emittedDecls f,
      cg.pos < (sourceRange d).1 ∨ (sourceRange d).2 ≤ cg.pos) :
    List.count cg (writeFile names f out).log = List.count cg out.log + 1 := by
  rw [writeFile_log, List.count_append]
  have hr : ∀ d ∈ f.decls, d.isImportDecl = false → (sourceRange d).1 ≤ (sourceRange d).2 :=
    fun d hd hi => hf.rangeNonempty d (by simp [emittedDecls, List.mem_filter, hd, hi])
  have ho : ∀ d ∈ f.decls, d.isImportDecl = false →
      cg.pos < (sourceRange d).1 ∨ (sourceRange d).2 ≤ cg.pos :=
    fun d hd hi => hout d (by simp [emittedDecls, List.mem_filter, hd, hi])
  rw [commentLog_count f hf.commentsSorted hf.commentsNonempty hf.lineMono cg hcg hinf
    f.decls (initialLast f) hr hf.declsSorted hstart ho]

theorem commentFile_ordered : FileOrdered commentFile where
  commentsSorted := by decide
  commentsNonempty := by decide
  lineMono := fun p q h => Nat.div_le_div_right h
  rangeNonempty := by decide
  declsSorted := by decide

/-- C10 (witness): in `commentFile` the comment after the last declaration is
written once. -/
theorem writeFile_comment_once_witness :
    List.count finalComment (writeFile (namesOf []) commentFile ⟨"", []⟩).log =
      List.count finalComment ([] : List CommentGroup) + 1 :=
  writeFile_comment_once (namesOf []) commentFile ⟨"", []⟩ finalComment commentFile_ordered
    (by decide) (by decide) (by decide) (by decide)

/-! ## Dependency graph walker -/

theorem mem_insertSorted (k : String) (l : List String) (q : String) :
    q ∈ insertSorted k l ↔ q = k ∨ q ∈ l := by
  induction l with
  | nil => simp [insertSorted]
  | cons x xs ih =>
    by_cases h : strLe k.data x.data = true
    · simp [insertSorted, h]
    · have h1 : strLe k.data x.data = false := by simpa using h
      simp only [insertSorted, h1, Bool.false_eq_true, if_false, List.mem_cons, ih]
      tauto

theorem mem_sortedImports (l : List String) (q : String) : q ∈ sortedImports l ↔ q ∈ l := by
  unfold sortedImports
  induction l with
  | nil => simp [sortStrings]
  | cons x xs ih => simp [sortStrings, mem_insertSorted, ih]

theorem mem_setInsert (k : String) (m : List String) (q : String) :
    q ∈ setInsert k m ↔ q = k ∨ q ∈ m := by
  unfold setInsert
  by_cases h : k ∈ m
  · simp only [h, if_true]
    constructor
    · exact Or.inr
    · rintro (rfl | h1)
      · exact h
      · exact h1
  · simp only [h, if_false, List.mem_append, List.mem_singleton]
    tauto

theorem inlines_not_keeps (cfg : Config) (imp : String) (h : inlines cfg imp = true) :
    keeps cfg imp = false := by
  unfold inlines at h
  cases hk : keeps cfg imp
  · rfl
  · simp [hk] at h

theorem reachFrom_mono (cfg : Config) (load : String → LoadResult) (s1 s2 : List String)
    (h : ∀ q ∈ s1, ReachFrom cfg load s2 q) (q : String) (hq : ReachFrom cfg load s1 q) :
    ReachFrom cfg load s2 q := by
  induction hq with
  | direct q hq => exact h q hq
  | via p q pkg _ hi hl hm ih => exact ReachFrom.via p q pkg ih hi hl hm

theorem reachFrom_cons_inline (cfg : Config) (load : String → LoadResult) (imp : String)
    (rest : List String) (dep : Package) (hi : inlines cfg imp = true)
    (hl : (load imp).pkgs.head? = some dep) (q : String) :
    ReachFrom cfg load (imp :: rest) q ↔
      q = imp ∨ ReachFrom cfg load dep.imports q ∨ ReachFrom cfg load rest q := by
  constructor
  · intro hq
    induction hq with
    | direct q hq =>
      rcases List.mem_cons.mp hq with he | ht
      · exact Or.inl he
      · exact Or.inr (Or.inr (ReachFrom.direct q ht))
    | via p q pkg _ hpi hpl hm ih =>
      rcases ih with he | hd | hr
      · subst he
        rw [hl] at hpl
        injection hpl with hpl
        subst hpl
        exact Or.inr (Or.inl (ReachFrom.direct q hm))
      · exact Or.inr (Or.inl (ReachFrom.via p q pkg hd hpi hpl hm))
      · exact Or.inr (Or.inr (ReachFrom.via p q pkg hr hpi hpl hm))
  · rintro (he | hd | hr)
    · rw [he]; exact ReachFrom.direct imp (List.mem_cons_self _ _)
    · apply reachFrom_mono cfg load dep.imports _ _ q hd
      intro x hx
      exact ReachFrom.via imp x dep (ReachFrom.direct imp (List.mem_cons_self _ _)) hi hl hx
    · apply reachFrom_mono cfg load rest _ _ q hr
      intro x hx
      exact ReachFrom.direct x (List.mem_cons_of_mem _ hx)

theorem reachFrom_cons_other (cfg : Config) (load : String → LoadResult) (imp : String)
    (rest : List String) (hi : inlines cfg imp = false) (q : String) :
    ReachFrom cfg load (imp :: rest) q ↔ q = imp ∨ ReachFrom cfg load rest q := by
  constructor
  · intro hq
    induction hq with
    | direct q hq =>
      rcases List.mem_cons.mp hq with he | ht
      · exact Or.inl he
      · exact Or.inr (ReachFrom.direct q ht)
    | via p q pkg _ hpi hpl hm ih =>
      rcases ih with he | hr
      · subst he
        rw [hi] at hpi
        exact absurd hpi (by simp)
      · exact Or.inr (ReachFrom.via p q pkg hr hpi hpl hm)
  · rintro (he | hr)
    · rw [he]; exact ReachFrom.direct imp (List.mem_cons_self _ _)
    · apply reachFrom_mono cfg load rest _ _ q hr
      intro x hx
      exact ReachFrom.direct x (List.mem_cons_of_mem _ hx)

theorem writeAll_append (out : Buffer) (a b : List Package) :
    writeAll out (a ++ b) = writeAll (writeAll out a) b := by
  induction a generalizing out with
  | nil => rfl
  | cons p ps ih => simp [writeAll, ih]

theorem reachFrom_nil (cfg : Config) (load : String → LoadResult) (q : String) :
    ¬ReachFrom cfg load [] q := by
  intro hq
  induction hq with
  | direct q hq => simp at hq
  | via p q pkg _ _ _ _ ih => exact ih

theorem walkPost_nil (cfg : Config) (load : String → LoadResult) (pkgName : String)
    (st : WalkState) (hext : ∀ x ∈ st.pkgExt, x = pkgName) :
    WalkPost cfg load pkgName [] st st [] := by
  have hno := reachFrom_nil cfg load
  refine ⟨hext, fun q => ?_, fun q => ?_, by simp, rfl, fun M hM => by simp at hM,
    fun q hq => absurd hq (hno q)⟩
  · constructor
    · exact Or.inl
    · rintro (h | h)
      · exact h
      · exact absurd h.1 (hno q)
  · constructor
    · exact Or.inl
    · rintro (h | h)
      · exact h
      · exact absurd h.1 (hno q)

theorem walkPost_keep (cfg : Config) (load : String → LoadResult) (pkgName imp : String)
    (rest : List String) (st st1 : WalkState) (hk : keeps cfg imp = true)
    (new : List Package)
    (h : WalkPost cfg load pkgName rest { st with pkgStd := setInsert imp st.pkgStd } st1 new) :
    WalkPost cfg load pkgName (imp :: rest) st st1 new := by
  have hi : inlines cfg imp = false := by simp [inlines, hk]
  obtain ⟨h1, h2, h3, h4, h5, h6, h7⟩ := h
  refine ⟨h1, fun q => ?_, fun q => ?_, h4, h5, h6, fun q hq hqi => ?_⟩
  rotate_left 2
  · rcases (reachFrom_cons_other cfg load imp rest hi q).mp hq with he | hr
    · rw [he, hi] at hqi; exact absurd hqi (by simp)
    · exact h7 q hr hqi
  · rw [h2 q, reachFrom_cons_other cfg load imp rest hi q]
    simp only [mem_setInsert]
    constructor
    · rintro ((he | hs) | ⟨hr, hq⟩)
      · exact Or.inr ⟨Or.inl he, he ▸ hk⟩
      · exact Or.inl hs
      · exact Or.inr ⟨Or.inr hr, hq⟩
    · rintro (hs | ⟨he | hr, hq⟩)
      · exact Or.inl (Or.inr hs)
      · exact Or.inl (Or.inl he)
      · exact Or.inr ⟨hr, hq⟩
  · rw [h3 q, reachFrom_cons_other cfg load imp rest hi q]
    constructor
    · rintro (hs | ⟨hr, hq⟩)
      · exact Or.inl hs
      · exact Or.inr ⟨Or.inr hr, hq⟩
    · rintro (hs | ⟨he | hr, hq⟩)
      · exact Or.inl hs
      · rw [he, hi] at hq; exact absurd hq (by simp)
      · exact Or.inr ⟨hr, hq⟩

theorem walkPost_drop (cfg : Config) (load : String → LoadResult) (pkgName imp : String)
    (rest : List String) (st st1 : WalkState) (hk : keeps cfg imp = false)
    (hi : inlines cfg imp = false) (new : List Package)
    (h : WalkPost cfg load pkgName rest st st1 new) :
    WalkPost cfg load pkgName (imp :: rest) st st1 new := by
  obtain ⟨h1, h2, h3, h4, h5, h6, h7⟩ := h
  refine ⟨h1, fun q => ?_, fun q => ?_, h4, h5, h6, fun q hq hqi => ?_⟩
  rotate_left 2
  · rcases (reachFrom_cons_other cfg load imp rest hi q).mp hq with he | hr
    · rw [he, hi] at hqi; exact absurd hqi (by simp)
    · exact h7 q hr hqi
  · rw [h2 q, reachFrom_cons_other cfg load imp rest hi q]
    constructor
    · rintro (hs | ⟨hr, hq⟩)
      · exact Or.inl hs
      · exact Or.inr ⟨Or.inr hr, hq⟩
    · rintro (hs | ⟨he | hr, hq⟩)
      · exact Or.inl hs
      · rw [he, hk] at hq; exact absurd hq (by simp)
      · exact Or.inr ⟨hr, hq⟩
  · rw [h3 q, reachFrom_cons_other cfg load imp rest hi q]
    constructor
    · rintro (hs | ⟨hr, hq⟩)
      · exact Or.inl hs
      · exact Or.inr ⟨Or.inr hr, hq⟩
    · rintro (hs | ⟨he | hr, hq⟩)
      · exact Or.inl hs
      · rw [he, hi] at hq; exact absurd hq (by simp)
      · exact Or.inr ⟨hr, hq⟩

theorem walkPost_inline (cfg : Config) (load : String → LoadResult) (pkgName imp : String)
    (rest : List String) (dep : Package) (st st1 st2 : WalkState)
    (hi : inlines cfg imp = true) (hl : (load imp).pkgs.head? = some dep)
    (new1 new2 : List Package)
    (h : WalkPost cfg load pkgName dep.imports { st with loaded := st.loaded ++ [imp] } st1 new1)
    (hself : ∃ M0, OriginAt load imp M0 ∧
      rewriteAll cfg load (sortedImports M0.imports) M0 ∈ new1)
    (g : WalkPost cfg load pkgName rest st1 st2 new2) :
    WalkPost cfg load pkgName (imp :: rest) st st2 (new1 ++ new2) := by
  have hk := inlines_not_keeps cfg imp hi
  obtain ⟨_, h2, h3, hw1, hc1, hn1, he1⟩ := h
  obtain ⟨g1, g2, g3, hw2, hc2, hn2, he2⟩ := g
  refine ⟨g1, fun q => ?_, fun q => ?_, ?_, ?_, ?_, fun q hq hqi => ?_⟩
  rotate_left 5
  · rcases (reachFrom_cons_inline cfg load imp rest dep hi hl q).mp hq with he | hr | hr
    · obtain ⟨M0, hM0, hmem⟩ := hself
      exact ⟨M0, he ▸ hM0, List.mem_append_left _ hmem⟩
    · obtain ⟨M0, hM0, hmem⟩ := he1 q hr hqi
      exact ⟨M0, hM0, List.mem_append_left _ hmem⟩
    · obtain ⟨M0, hM0, hmem⟩ := he2 q hr hqi
      exact ⟨M0, hM0, List.mem_append_right _ hmem⟩
  · rw [g2 q, h2 q, reachFrom_cons_inline cfg load imp rest dep hi hl q]
    constructor
    · rintro ((hs | ⟨hr, hq⟩) | ⟨hr, hq⟩)
      · exact Or.inl hs
      · exact Or.inr ⟨Or.inr (Or.inl hr), hq⟩
      · exact Or.inr ⟨Or.inr (Or.inr hr), hq⟩
    · rintro (hs | ⟨he | hr | hr, hq⟩)
      · exact Or.inl (Or.inl hs)
      · rw [he, hk] at hq; exact absurd hq (by simp)
      · exact Or.inl (Or.inr ⟨hr, hq⟩)
      · exact Or.inr ⟨hr, hq⟩
  · rw [g3 q, h3 q, reachFrom_cons_inline cfg load imp rest dep hi hl q]
    simp only [List.mem_append, List.mem_singleton]
    constructor
    · rintro (((hs | he) | ⟨hr, hq⟩) | ⟨hr, hq⟩)
      · exact Or.inl hs
      · exact Or.inr ⟨Or.inl he, he ▸ hi⟩
      · exact Or.inr ⟨Or.inr (Or.inl hr), hq⟩
      · exact Or.inr ⟨Or.inr (Or.inr hr), hq⟩
    · rintro (hs | ⟨he | hr | hr, hq⟩)
      · exact Or.inl (Or.inl (Or.inl hs))
      · exact Or.inl (Or.inl (Or.inr he))
      · exact Or.inl (Or.inr ⟨hr, hq⟩)
      · exact Or.inr ⟨hr, hq⟩
  · rw [hw2, hw1, List.append_assoc]
  · rw [hc2, hc1, writeAll_append]
  · intro M hM
    rcases List.mem_append.mp hM with h | h
    · exact hn1 M h
    · exact hn2 M h

theorem loadFilesOfPackage_ok (load : String → LoadResult) (imp : String) (dep : Package)
    (h : (load imp).pkgs.head? = some dep) : loadFilesOfPackage load imp = .ok dep :=
  ((loadFilesOfPackage_head load imp).1 dep).mpr h

theorem importsLoop_spec (cfg : Config) (load : String → LoadResult) (pkgName : String)
    (recur : Package → WalkState → Except Fault WalkState) (rank : String → Nat) (bound : Nat)
    (hrec : ∀ imp dep st, inlines cfg imp = true → rank imp < bound → OriginAt load imp dep →
      (∀ x ∈ st.pkgExt, x = pkgName) →
      ∃ st1 new, recur dep st = .ok st1 ∧ WalkPost cfg load pkgName dep.imports st st1 new ∧
        rewriteAll cfg load (sortedImports dep.imports) dep ∈ new)
    (imps : List String)
    (himps : ∀ q ∈ imps, inlines cfg q = true →
      (load q).pkgs ≠ [] ∧ rank q < bound ∧ q ≠ pkgName)
    (pkg : Package) (st : WalkState) (hext : ∀ x ∈ st.pkgExt, x = pkgName) :
    ∃ st1 new,
      importsLoop cfg load recur imps pkg st = .ok (rewriteAll cfg load imps pkg, st1) ∧
      WalkPost cfg load pkgName imps st st1 new := by
  induction imps generalizing pkg st with
  | nil => exact ⟨st, [], rfl, walkPost_nil cfg load pkgName st hext⟩
  | cons imp rest ih =>
    have hrest : ∀ q ∈ rest, inlines cfg q = true →
        (load q).pkgs ≠ [] ∧ rank q < bound ∧ q ≠ pkgName :=
      fun q hq => himps q (List.mem_cons_of_mem _ hq)
    cases hk : keeps cfg imp with
    | true =>
      have hk1 : (isStandardImportPath imp || cfg.isTorbitDependency imp) = true := hk
      have hi : inlines cfg imp = false := by simp [inlines, hk]
      obtain ⟨st1, new, h1, h2⟩ :=
        ih hrest pkg { st with pkgStd := setInsert imp st.pkgStd } hext
      refine ⟨st1, new, ?_, walkPost_keep cfg load pkgName imp rest st st1 hk new h2⟩
      simp only [importsLoop, hk1, if_true, rewriteAll, hi, Bool.false_eq_true, if_false]
      exact h1
    | false =>
      have hk1 : (isStandardImportPath imp || cfg.isTorbitDependency imp) = false := hk
      cases hi : inlines cfg imp with
      | false =>
        have hs : (isSharedDependency cfg imp || isVendorDependency imp) = false := by
          simpa [inlines, hk] using hi
        obtain ⟨st1, new, h1, h2⟩ := ih hrest pkg st hext
        refine ⟨st1, new, ?_, walkPost_drop cfg load pkgName imp rest st st1 hk hi new h2⟩
        simp only [importsLoop, hk1, hs, rewriteAll, hi, Bool.false_eq_true, if_false]
        exact h1
      | true =>
        have hs : (isSharedDependency cfg imp || isVendorDependency imp) = true := by
          simpa [inlines, hk] using hi
        obtain ⟨hne, hrank, hnroot⟩ := himps imp (List.mem_cons_self _ _) hi
        have hnext : imp ∉ st.pkgExt := fun hm => hnroot (hext imp hm)
        obtain ⟨dep, tl, hpk⟩ := List.exists_cons_of_ne_nil hne
        have hl : (load imp).pkgs.head? = some dep := by rw [hpk]; rfl
        obtain ⟨objs, hobjs, _⟩ := getObjectsToUpdate_reach dep
        have horigin : OriginAt load imp
            (renamePackageDeclarations dep objs (dep.name ++ "_")) :=
          ⟨dep, hl, Or.inr ⟨objs, hobjs, rfl⟩⟩
        obtain ⟨st1, new1, hr1, hp1, hself⟩ := hrec imp
          (renamePackageDeclarations dep objs (dep.name ++ "_"))
          { st with loaded := st.loaded ++ [imp] } hi hrank horigin hext
        obtain ⟨st2, new2, h1, h2⟩ :=
          ih hrest (modifyEachFileAST pkg imp (dep.name ++ "_")) st1 hp1.1
        refine ⟨st2, new1 ++ new2, ?_,
          walkPost_inline cfg load pkgName imp rest dep st st1 st2 hi hl new1 new2 hp1
            ⟨_, horigin, hself⟩ h2⟩
        simp only [importsLoop, hk1, hs, hnext, loadFilesOfPackage_ok load imp dep hl, hobjs,
          hr1, rewriteAll, hi, hpk, Bool.false_eq_true, if_false, if_true]
        exact h1

theorem originAt_imports (load : String → LoadResult) (p : String) (pkg L : Package)
    (hL : (load p).pkgs.head? = some L) (h : OriginAt load p pkg) : pkg.imports = L.imports := by
  obtain ⟨L1, h1, h2⟩ := h
  rw [hL] at h1
  injection h1 with h1
  subst h1
  rcases h2 with h2 | ⟨objs, _, h2⟩
  · rw [h2]
  · rw [h2]; rfl

theorem reachFrom_sortedImports (cfg : Config) (load : String → LoadResult) (l : List String)
    (q : String) : ReachFrom cfg load (sortedImports l) q ↔ ReachFrom cfg load l q := by
  constructor
  · apply reachFrom_mono
    intro x hx
    exact ReachFrom.direct x ((mem_sortedImports l x).mp hx)
  · apply reachFrom_mono
    intro x hx
    exact ReachFrom.direct x ((mem_sortedImports l x).mpr hx)

/-- The walker started on the package of path `p` returns, given enough
recursion depth, and changes its state as `WalkPost` says. -/
theorem recurseDependencyTree_spec (cfg : Config) (load : String → LoadResult)
    (pkgName : String) (rank : String → Nat) (hg : AcyclicGraph cfg load rank) (fuel : Nat) :
    ∀ p pkg st, OriginAt load p pkg → rank p < fuel → rank p ≤ rank pkgName →
      (∀ x ∈ st.pkgExt, x = pkgName) →
      ∃ st1 new, recurseDependencyTree cfg load pkgName fuel pkg st = .ok st1 ∧
        WalkPost cfg load pkgName pkg.imports st st1 new ∧
        rewriteAll cfg load (sortedImports pkg.imports) pkg ∈ new := by
  induction fuel with
  | zero => intro p pkg st _ h; exact absurd h (Nat.not_lt_zero _)
  | succ fuel ih =>
    intro p pkg st horigin hfuel hroot hext
    obtain ⟨L, hL, hcase⟩ := horigin
    have himports : pkg.imports = L.imports := originAt_imports load p pkg L hL ⟨L, hL, hcase⟩
    have hrec : ∀ imp dep st, inlines cfg imp = true → rank imp < rank p →
        OriginAt load imp dep → (∀ x ∈ st.pkgExt, x = pkgName) →
        ∃ st1 new, recurseDependencyTree cfg load pkgName fuel dep st = .ok st1 ∧
          WalkPost cfg load pkgName dep.imports st st1 new ∧
          rewriteAll cfg load (sortedImports dep.imports) dep ∈ new := by
      intro imp dep st _ hr ho he
      exact ih imp dep st ho (by omega) (by omega) he
    have himps : ∀ q ∈ sortedImports pkg.imports, inlines cfg q = true →
        (load q).pkgs ≠ [] ∧ rank q < rank p ∧ q ≠ pkgName := by
      intro q hq hi
      have hq1 : q ∈ L.imports := himports ▸ (mem_sortedImports _ q).mp hq
      have hlt := hg.descends p L hL q hq1 hi
      refine ⟨hg.resolves p L hL q hq1 hi, hlt, ?_⟩
      intro he
      rw [he] at hlt
      omega
    obtain ⟨st1, new, hloop, hpost⟩ :=
      importsLoop_spec cfg load pkgName (recurseDependencyTree cfg load pkgName fuel) rank
        (rank p) hrec (sortedImports pkg.imports) himps pkg st hext
    obtain ⟨h1, h2, h3, h4, h5, h6, h7⟩ := hpost
    refine ⟨{ st1 with
        pkgExt := setInsert pkgName st1.pkgExt
        codeOut := writeFilesToOutput (rewriteAll cfg load (sortedImports pkg.imports) pkg)
          st1.codeOut
        written := st1.written ++ [rewriteAll cfg load (sortedImports pkg.imports) pkg] },
      new ++ [rewriteAll cfg load (sortedImports pkg.imports) pkg], ?_, ?_, by simp⟩
    · simp only [recurseDependencyTree, hloop]
    · refine ⟨?_, ?_, ?_, ?_, ?_, ?_, ?_⟩
      · intro x hx
        rcases (mem_setInsert pkgName st1.pkgExt x).mp hx with he | hm
        · exact he
        · exact h1 x hm
      · intro q
        rw [← reachFrom_sortedImports]
        exact h2 q
      · intro q
        rw [← reachFrom_sortedImports]
        exact h3 q
      · show st1.written ++ _ = st.written ++ _
        rw [h4, List.append_assoc]
      · show writeFilesToOutput _ st1.codeOut = _
        rw [h5, writeAll_append]
        rfl
      · intro M hM
        rcases List.mem_append.mp hM with hm | hm
        · exact h6 M hm
        · rw [List.mem_singleton] at hm
          exact ⟨p, pkg, ⟨L, hL, hcase⟩, hm⟩
      · intro q hq hi
        obtain ⟨M0, hM0, hmem⟩ := h7 q ((reachFrom_sortedImports cfg load _ q).mpr hq) hi
        exact ⟨M0, hM0, List.mem_append_left _ hmem⟩

/-- The empty state `traverseDependencyTree` starts with. -/
theorem traverseDependencyTree_spec (cfg : Config) (load : String → LoadResult)
    (rank : String → Nat) (hg : AcyclicGraph cfg load rank) (pkgName : String) (root : Package)
    (hroot : (load pkgName).pkgs.head? = some root) (fuel : Nat) (hfuel : rank pkgName < fuel) :
    ∃ st new, traverseDependencyTree cfg load fuel pkgName = .ok st ∧
      WalkPost cfg load pkgName root.imports
        { pkgStd := [], pkgExt := [], codeOut := { text := "", log := [] },
          loaded := [], written := [] } st new ∧
      rewriteAll cfg load (sortedImports root.imports) root ∈ new := by
  obtain ⟨st, new, h1, h2, h3⟩ :=
    recurseDependencyTree_spec cfg load pkgName rank hg fuel pkgName root
      { pkgStd := [], pkgExt := [], codeOut := { text := "", log := [] },
        loaded := [], written := [] }
      ⟨root, hroot, Or.inl rfl⟩ hfuel (le_refl _) (by simp)
  refine ⟨st, new, ?_, h2, h3⟩
  simp only [traverseDependencyTree, loadFilesOfPackage_ok load pkgName root hroot]
  exact h1

/-! ## Properties of a full run of the walker -/

theorem reachFrom_importClosure (cfg : Config) (load : String → LoadResult)
    (start : List String) (q : String) (h : ReachFrom cfg load start q) :
    ImportClosure load start q := by
  induction h with
  | direct q hq => exact ImportClosure.direct q hq
  | via p q pkg _ _ hl hm ih => exact ImportClosure.via p q pkg ih hl hm

theorem keeps_inlines_exclusive (cfg : Config) (q : String) :
    ¬(keeps cfg q = true ∧ inlines cfg q = true) := by
  rintro ⟨hk, hi⟩
  rw [inlines_not_keeps cfg q hi] at hk
  exact absurd hk (by simp)

theorem diamond_acyclic : AcyclicGraph exampleCfg diamondLoad diamondRank where
  resolves := by
    intro p pkg h q hq _
    unfold diamondLoad at h
    split_ifs at h with h1 h2 h3 h4 <;> simp at h <;> subst h <;>
      simp [pkgRoot, pkgB, pkgC, pkgD] at hq
    · rcases hq with rfl | rfl
      · rw [show (diamondLoad "github.com/acme/c").pkgs = [pkgC] from rfl]; simp
      · rw [show (diamondLoad "github.com/acme/b").pkgs = [pkgB] from rfl]; simp
    · subst hq
      rw [show (diamondLoad "github.com/acme/d").pkgs = [pkgD] from rfl]; simp
    · subst hq
      rw [show (diamondLoad "github.com/acme/d").pkgs = [pkgD] from rfl]; simp
  descends := by
    intro p pkg h q hq _
    unfold diamondLoad at h
    split_ifs at h with h1 h2 h3 h4 <;> simp at h <;> subst h <;>
      simp [pkgRoot, pkgB, pkgC, pkgD] at hq
    · subst h1; rcases hq with rfl | rfl <;> decide
    · subst h2; subst hq; decide
    · subst h3; subst hq; decide

/-- C1 (the code at the failing input): on the diamond (the root imports `b`
and `c`, both import `d`, all four inlined) the walker loads `d` twice and
writes its declaration `func d_D() {}` twice, and the memo set `pkgExt` ends
with the root's path as its only key. -/
theorem diamond_inlines_d_twice :
    outLoaded (traverseDependencyTree exampleCfg diamondLoad 3 "github.com/acme/app") =
        some ["github.com/acme/b", "github.com/acme/d", "github.com/acme/c",
          "github.com/acme/d"] ∧
      outText (traverseDependencyTree exampleCfg diamondLoad 3 "github.com/acme/app") =
        some ("func d_D() \x7b\x7d\n\nfunc b_B() \x7b d_D() \x7d\n\nfunc d_D() \x7b\x7d\n\n" ++
          "func c_C() \x7b d_D() \x7d\n\nfunc main() \x7b b_B(); c_C() \x7d\n\n") ∧
      outExt (traverseDependencyTree exampleCfg diamondLoad 3 "github.com/acme/app") =
        some ["github.com/acme/app"] := by
  decide

/-- C3 (counterexample): the root `pkgTool` imports `golang.org/x/sync`, which
is in its import closure, but after the run the path is neither kept nor
inlined: the kept set is {fmt} and nothing is inlined. -/
theorem dropped_import_in_neither_set :
    ImportClosure toolLoad pkgTool.imports "golang.org/x/sync" ∧
      outStd (traverseDependencyTree exampleCfg toolLoad 2 "github.com/acme/tool") =
        some ["fmt"] ∧
      outLoaded (traverseDependencyTree exampleCfg toolLoad 2 "github.com/acme/tool") =
        some [] :=
  ⟨ImportClosure.direct _ (by decide), by decide, by decide⟩

/-- C3 (amended): on every acyclic graph whose inlined imports resolve, with a
recursion depth above the rank of the root, `traverseDependencyTree` returns;
the returned kept-import set `pkgStd` and the set of inlined module paths are
disjoint; their union is the set of the import paths that the walker meets
(the imports of the root and of every inlined module) and that pass the keep
test or the inline test; and every path of the union is in the root's
transitive import closure.  An import that passes neither test is in neither
set, and the imports of kept modules are not followed. -/
theorem traverseDependencyTree_partition (cfg : Config) (load : String → LoadResult)
    (rank : String → Nat) (hg : AcyclicGraph cfg load rank) (pkgName : String) (root : Package)
    (hroot : (load pkgName).pkgs.head? = some root) (fuel : Nat) (hfuel : rank pkgName < fuel) :
    ∃ st, traverseDependencyTree cfg load fuel pkgName = .ok st ∧
      (∀ q, ¬(q ∈ st.pkgStd ∧ q ∈ st.loaded)) ∧
      (∀ q, (q ∈ st.pkgStd ∨ q ∈ st.loaded) ↔
        (ReachFrom cfg load root.imports q ∧ (keeps cfg q = true ∨ inlines cfg q = true))) ∧
      (∀ q, (q ∈ st.pkgStd ∨ q ∈ st.loaded) → ImportClosure load root.imports q) := by
  obtain ⟨st, new, hrun, ⟨_, hstd, hld, _⟩, _⟩ :=
    traverseDependencyTree_spec cfg load rank hg pkgName root hroot fuel hfuel
  have hstd1 : ∀ q, q ∈ st.pkgStd ↔ (ReachFrom cfg load root.imports q ∧ keeps cfg q = true) := by
    intro q; rw [hstd q]; simp
  have hld1 : ∀ q, q ∈ st.loaded ↔ (ReachFrom cfg load root.imports q ∧ inlines cfg q = true) := by
    intro q; rw [hld q]; simp
  refine ⟨st, hrun, ?_, ?_, ?_⟩
  · rintro q ⟨h1, h2⟩
    exact keeps_inlines_exclusive cfg q ⟨((hstd1 q).mp h1).2, ((hld1 q).mp h2).2⟩
  · intro q
    rw [hstd1 q, hld1 q]
    tauto
  · intro q hq
    rw [hstd1 q, hld1 q] at hq
    rcases hq with h | h
    · exact reachFrom_importClosure cfg load _ q h.1
    · exact reachFrom_importClosure cfg load _ q h.1

/-- C3 (witness): the diamond. -/
theorem traverseDependencyTree_partition_witness :
    ∃ st, traverseDependencyTree exampleCfg diamondLoad 3 "github.com/acme/app" = .ok st ∧
      (∀ q, ¬(q ∈ st.pkgStd ∧ q ∈ st.loaded)) ∧
      (∀ q, (q ∈ st.pkgStd ∨ q ∈ st.loaded) ↔
        (ReachFrom exampleCfg diamondLoad pkgRoot.imports q ∧
          (keeps exampleCfg q = true ∨ inlines exampleCfg q = true))) ∧
      (∀ q, (q ∈ st.pkgStd ∨ q ∈ st.loaded) → ImportClosure diamondLoad pkgRoot.imports q) :=
  traverseDependencyTree_partition exampleCfg diamondLoad diamondRank diamond_acyclic
    "github.com/acme/app" pkgRoot rfl 3 (by decide)

/-- C7 (counterexample): with the root module `myapp`, the import `myapp/util`
starts with the root-module prefix, but the walker keeps it: it is the one key
of `pkgStd`, no module is loaded for it and only the root is written. -/
theorem shared_import_is_kept :
    isSharedDependency localCfg "myapp/util" = true ∧
      outStd (traverseDependencyTree localCfg localLoad 2 "myapp/cmd") = some ["myapp/util"] ∧
      outLoaded (traverseDependencyTree localCfg localLoad 2 "myapp/cmd") = some [] ∧
      outText (traverseDependencyTree localCfg localLoad 2 "myapp/cmd") =
        some "func main() \x7b\x7d\n\n" := by
  decide

/-- C7 (amended): on every acyclic graph whose inlined imports resolve,
every import path the walker meets that fails the keep test
(`isStandardImportPath` and `isTorbitDependency` are both false) and starts with the root-module
prefix or contains the vendor marker `github.com` is classified Inline: the
walker loads the module, passes its rewritten package to the emitter, and does
not add the path to the kept set `pkgStd`. -/
theorem inline_imports_are_inlined (cfg : Config) (load : String → LoadResult)
    (rank : String → Nat) (hg : AcyclicGraph cfg load rank) (pkgName : String) (root : Package)
    (hroot : (load pkgName).pkgs.head? = some root) (fuel : Nat) (hfuel : rank pkgName < fuel) :
    ∃ st, traverseDependencyTree cfg load fuel pkgName = .ok st ∧
      ∀ imp, ReachFrom cfg load root.imports imp →
        isStandardImportPath imp = false → cfg.isTorbitDependency imp = false →
        (isSharedDependency cfg imp = true ∨ isVendorDependency imp = true) →
        imp ∈ st.loaded ∧ imp ∉ st.pkgStd ∧
          ∃ M0, OriginAt load imp M0 ∧
            rewriteAll cfg load (sortedImports M0.imports) M0 ∈ st.written := by
  obtain ⟨st, new, hrun, ⟨_, hstd, hld, hw, _, _, hem⟩, _⟩ :=
    traverseDependencyTree_spec cfg load rank hg pkgName root hroot fuel hfuel
  refine ⟨st, hrun, ?_⟩
  intro imp hr h1 h2 h3
  have hk : keeps cfg imp = false := by simp [keeps, h1, h2]
  have hi : inlines cfg imp = true := by
    rcases h3 with h3 | h3 <;> simp [inlines, hk, h3]
  refine ⟨(hld imp).mpr (Or.inr ⟨hr, hi⟩), ?_, ?_⟩
  · intro hm
    rcases (hstd imp).mp hm with h | h
    · simp at h
    · rw [hk] at h; exact absurd h.2 (by simp)
  · obtain ⟨M0, hM0, hmem⟩ := hem imp hr hi
    refine ⟨M0, hM0, ?_⟩
    rw [hw]
    exact List.mem_append_right _ hmem

/-- C7 (witness): the diamond. -/
theorem inline_imports_are_inlined_witness :
    ∃ st, traverseDependencyTree exampleCfg diamondLoad 3 "github.com/acme/app" = .ok st ∧
      ∀ imp, ReachFrom exampleCfg diamondLoad pkgRoot.imports imp →
        isStandardImportPath imp = false → exampleCfg.isTorbitDependency imp = false →
        (isSharedDependency exampleCfg imp = true ∨ isVendorDependency imp = true) →
        imp ∈ st.loaded ∧ imp ∉ st.pkgStd ∧
          ∃ M0, OriginAt diamondLoad imp M0 ∧
            rewriteAll exampleCfg diamondLoad (sortedImports M0.imports) M0 ∈ st.written :=
  inline_imports_are_inlined exampleCfg diamondLoad diamondRank diamond_acyclic
    "github.com/acme/app" pkgRoot rfl 3 (by decide)

/-! ## Names given to the declarations of inlined modules -/

theorem scope_subset_objs (pkg : Package) (objs : List Object)
    (h : getObjectsToUpdate pkg = .ok objs) (o : Object) (ho : o ∈ pkg.scope) : o ∈ objs := by
  obtain ⟨objs1, h1, h2⟩ := getObjectsToUpdate_reach pkg
  rw [h] at h1
  injection h1 with h1
  subst h1
  exact (h2 o).mpr (Reach.root o ho)

theorem renamedName_scope (pkg : Package) (hwf : InfoWF pkg) (id : Ident) (o : Object)
    (hd : (id, some o) ∈ pkg.defs) (hs : o ∈ pkg.scope) :
    renamedName pkg id = some (pkg.name ++ "_" ++ o.name) := by
  obtain ⟨objs, h1, _⟩ := getObjectsToUpdate_reach pkg
  have ho := scope_subset_objs pkg objs h1 o hs
  simp only [renamedName, h1]
  rw [rename_def_name pkg objs (pkg.name ++ "_") hwf.defsNodup hwf.usesNodup
    (fun id o1 o2 h1 h2 _ _ => hwf.sameName id o1 o2 h1 h2) id o hd ho]

theorem append_right_cancel (a b s : String) (h : a ++ s = b ++ s) : a = b := by
  have h1 : (a ++ s).data = (b ++ s).data := by rw [h]
  simp only [String.data_append] at h1
  exact String.ext (List.append_cancel_right h1)

/-- C5 (counterexample): the modules `github.com/acme/x/util` and
`github.com/acme/y/util` are distinct inlined paths, both are named `util` and
both declare `Config`; the walker renames both declarations to `util_Config`,
and the merged output holds two declarations of that name. -/
theorem same_short_name_clashes :
    ("github.com/acme/x/util" : String) ≠ "github.com/acme/y/util" ∧
      outLoaded (traverseDependencyTree exampleCfg clashLoad 2 "github.com/acme/svc") =
        some ["github.com/acme/x/util", "github.com/acme/y/util"] ∧
      renamedName pkgUtilX 0 = some "util_Config" ∧
      renamedName pkgUtilY 0 = some "util_Config" ∧
      outText (traverseDependencyTree exampleCfg clashLoad 2 "github.com/acme/svc") =
        some ("type util_Config struct\x7b\x7d\n\ntype util_Config struct\x7b n int \x7d\n\n" ++
          "var a util_Config\n\nvar b util_Config\n\n") := by
  decide

/-- C5 (amended): for any two inlined modules `A` and `B` whose short package
names differ and that both declare a top-level name `n`, the names under
which the walker renames the two declarations, `A.name_n` and `B.name_n`,
are different. -/
theorem renamed_names_differ (A B : Package) (hA : InfoWF A) (hB : InfoWF B)
    (idA idB : Ident) (oA oB : Object)
    (hdA : (idA, some oA) ∈ A.defs) (hsA : oA ∈ A.scope)
    (hdB : (idB, some oB) ∈ B.defs) (hsB : oB ∈ B.scope)
    (hn : oA.name = oB.name) (hne : A.name ≠ B.name) :
    renamedName A idA = some (A.name ++ "_" ++ oA.name) ∧
      renamedName B idB = some (B.name ++ "_" ++ oB.name) ∧
      renamedName A idA ≠ renamedName B idB := by
  have h1 := renamedName_scope A hA idA oA hdA hsA
  have h2 := renamedName_scope B hB idB oB hdB hsB
  refine ⟨h1, h2, ?_⟩
  rw [h1, h2, hn]
  intro h
  injection h with h
  rw [String.append_assoc, String.append_assoc] at h
  exact hne (append_right_cancel _ _ _ h)

theorem pkgUtilX_wf : InfoWF pkgUtilX where
  defsNodup := by decide
  usesNodup := by decide
  sameName := by intro id o1 o2 _ h2; simp [pkgUtilX] at h2

theorem pkgConf_wf : InfoWF pkgConf where
  defsNodup := by decide
  usesNodup := by decide
  sameName := by intro id o1 o2 _ h2; simp [pkgConf] at h2

/-- C5 (witness): the packages `util` and `conf` both declare `Config`. -/
theorem renamed_names_differ_witness :
    renamedName pkgUtilX 0 = some (pkgUtilX.name ++ "_" ++ objConfigX.name) ∧
      renamedName pkgConf 0 = some (pkgConf.name ++ "_" ++ objConfigZ.name) ∧
      renamedName pkgUtilX 0 ≠ renamedName pkgConf 0 :=
  renamed_names_differ pkgUtilX pkgConf pkgUtilX_wf pkgConf_wf 0 0 objConfigX objConfigZ
    (by decide) (by decide) (by decide) (by decide) (by decide) (by decide)

/-! ## Reference rewriter -/

theorem rewriteSelector_hit (uses : List (Ident × Object)) (D pre : String) (q s : Ident)
    (names : Ident → String) (h : ImportsPkg uses q D) :
    rewriteSelector uses D pre (.selector (.ident q) s) names =
      setName (setName names s (pre ++ names s)) q "@@@" := by
  obtain ⟨i, nm, hl⟩ := h
  simp [rewriteSelector, hl]

theorem rewriteSelector_miss (uses : List (Ident × Object)) (D pre : String) (q s : Ident)
    (names : Ident → String) (h : ¬ImportsPkg uses q D) :
    rewriteSelector uses D pre (.selector (.ident q) s) names = names := by
  cases hl : lookupUse uses q with
  | none => simp [rewriteSelector, hl]
  | some o =>
    obtain ⟨i, nm, k⟩ := o
    cases k with
    | typeName => simp [rewriteSelector, hl]
    | other => simp [rewriteSelector, hl]
    | pkgName path =>
      by_cases hp : path = D
      · exact absurd ⟨i, nm, hp ▸ hl⟩ h
      · simp [rewriteSelector, hl, hp]

theorem selectors_idents (n : Node) (q s : Ident) (h : (q, s) ∈ n.selectors) :
    q ∈ n.idents ∧ s ∈ n.idents := by
  induction n with
  | ident id => simp [Node.selectors] at h
  | lit t => simp [Node.selectors] at h
  | seq l r ihl ihr =>
    simp only [Node.selectors, List.mem_append] at h
    simp only [Node.idents, List.mem_append]
    rcases h with h | h
    · exact ⟨Or.inl (ihl h).1, Or.inl (ihl h).2⟩
    · exact ⟨Or.inr (ihr h).1, Or.inr (ihr h).2⟩
  | selector x sel ih =>
    simp only [Node.selectors, List.mem_append] at h
    simp only [Node.idents, List.mem_append, List.mem_singleton]
    rcases h with h | h
    · cases x with
      | ident q0 =>
        simp only [List.mem_singleton, Prod.mk.injEq] at h
        exact ⟨Or.inl (by simp [Node.idents, h.1]), Or.inr h.2⟩
      | lit t => simp at h
      | seq l r => simp at h
      | selector y t => simp at h
    · exact ⟨Or.inl (ih h).1, Or.inl (ih h).2⟩

/-- The rewriter leaves an identifier alone that is no part of a selector it rewrites. -/
theorem inspectNode_frame (uses : List (Ident × Object)) (D pre : String) (n : Node)
    (names : Ident → String) (j : Ident)
    (h : ∀ q s, (q, s) ∈ n.selectors → ImportsPkg uses q D → j ≠ q ∧ j ≠ s) :
    inspectNode uses D pre n names j = names j := by
  induction n generalizing names with
  | ident id => rfl
  | lit t => rfl
  | seq l r ihl ihr =>
    have hl : ∀ q s, (q, s) ∈ l.selectors → ImportsPkg uses q D → j ≠ q ∧ j ≠ s :=
      fun q s hm => h q s (by simp [Node.selectors, hm])
    have hr : ∀ q s, (q, s) ∈ r.selectors → ImportsPkg uses q D → j ≠ q ∧ j ≠ s :=
      fun q s hm => h q s (by simp [Node.selectors, hm])
    show inspectNode uses D pre r (inspectNode uses D pre l names) j = names j
    rw [ihr _ hr, ihl _ hl]
  | selector x sel ih =>
    have hx : ∀ q s, (q, s) ∈ x.selectors → ImportsPkg uses q D → j ≠ q ∧ j ≠ s :=
      fun q s hm => h q s (by simp [Node.selectors, hm])
    show inspectNode uses D pre x (rewriteSelector uses D pre (.selector x sel) names) j = names j
    rw [ih _ hx]
    cases x with
    | lit t => rfl
    | seq l r => rfl
    | selector y t => rfl
    | ident q0 =>
      by_cases hq : ImportsPkg uses q0 D
      · rw [rewriteSelector_hit uses D pre q0 sel names hq]
        have := h q0 sel (by simp [Node.selectors]) hq
        rw [setName_other _ _ _ _ this.1, setName_other _ _ _ _ this.2]
      · rw [rewriteSelector_miss uses D pre q0 sel names hq]

theorem inspectNode_frame_not_mem (uses : List (Ident × Object)) (D pre : String) (n : Node)
    (names : Ident → String) (j : Ident) (h : j ∉ n.idents) :
    inspectNode uses D pre n names j = names j := by
  apply inspectNode_frame
  intro q s hm _
  have := selectors_idents n q s hm
  exact ⟨fun he => h (he ▸ this.1), fun he => h (he ▸ this.2)⟩

/-- The rewriter at a selector whose qualifier resolves to the used package. -/
theorem inspectNode_hit (uses : List (Ident × Object)) (D pre : String) (n : Node)
    (names : Ident → String) (hnd : n.idents.Nodup) (q s : Ident)
    (hm : (q, s) ∈ n.selectors) (hq : ImportsPkg uses q D) :
    inspectNode uses D pre n names q = "@@@" ∧
      inspectNode uses D pre n names s = pre ++ names s := by
  induction n generalizing names with
  | ident id => simp [Node.selectors] at hm
  | lit t => simp [Node.selectors] at hm
  | seq l r ihl ihr =>
    simp only [Node.idents] at hnd
    have hdis := List.disjoint_of_nodup_append hnd
    have hndl := (List.nodup_append.mp hnd).1
    have hndr := (List.nodup_append.mp hnd).2.1
    show inspectNode uses D pre r (inspectNode uses D pre l names) q = "@@@" ∧
      inspectNode uses D pre r (inspectNode uses D pre l names) s = pre ++ names s
    simp only [Node.selectors, List.mem_append] at hm
    rcases hm with hm | hm
    · have hi := selectors_idents l q s hm
      have h1 := ihl names hndl hm
      rw [inspectNode_frame_not_mem uses D pre r _ q (fun hr => hdis hi.1 hr),
        inspectNode_frame_not_mem uses D pre r _ s (fun hr => hdis hi.2 hr)]
      exact h1
    · have hi := selectors_idents r q s hm
      have h1 := ihr (inspectNode uses D pre l names) hndr hm
      rw [inspectNode_frame_not_mem uses D pre l names s (fun hl => hdis hl hi.2)] at h1
      exact h1
  | selector x sel ih =>
    simp only [Node.idents] at hnd
    have hndx := (List.nodup_append.mp hnd).1
    show inspectNode uses D pre x (rewriteSelector uses D pre (.selector x sel) names) q = "@@@" ∧
      inspectNode uses D pre x (rewriteSelector uses D pre (.selector x sel) names) s =
        pre ++ names s
    simp only [Node.selectors, List.mem_append] at hm
    cases x with
    | ident q0 =>
      have hm1 : q = q0 ∧ s = sel := by simpa [Node.selectors] using hm
      obtain ⟨rfl, rfl⟩ := hm1
      have hne : s ≠ q := by
        intro he
        simp [Node.idents, he] at hnd
      show rewriteSelector uses D pre (.selector (.ident q) s) names q = "@@@" ∧
        rewriteSelector uses D pre (.selector (.ident q) s) names s = pre ++ names s
      rw [rewriteSelector_hit uses D pre q s names hq]
      exact ⟨setName_same _ _ _, by rw [setName_other _ _ _ _ hne, setName_same]⟩
    | lit t => simp [Node.selectors] at hm
    | seq l r =>
      have hm1 : (q, s) ∈ (Node.seq l r).selectors := by simpa using hm
      exact ih names hndx hm1
    | selector y t =>
      have hm1 : (q, s) ∈ (Node.selector y t).selectors := by simpa using hm
      exact ih names hndx hm1

theorem selectors_disjoint (n : Node) (hnd : n.idents.Nodup) (q s q1 s1 : Ident)
    (hm : (q, s) ∈ n.selectors) (hm1 : (q1, s1) ∈ n.selectors) :
    (q = q1 ∧ s = s1) ∨ (q ≠ q1 ∧ q ≠ s1 ∧ s ≠ q1 ∧ s ≠ s1) := by
  induction n with
  | ident id => simp [Node.selectors] at hm
  | lit t => simp [Node.selectors] at hm
  | seq l r ihl ihr =>
    simp only [Node.idents] at hnd
    have hdis := List.disjoint_of_nodup_append hnd
    have hndl := (List.nodup_append.mp hnd).1
    have hndr := (List.nodup_append.mp hnd).2.1
    simp only [Node.selectors, List.mem_append] at hm hm1
    rcases hm with hm | hm <;> rcases hm1 with hm1 | hm1
    · exact ihl hndl hm hm1
    · have h := selectors_idents l q s hm
      have h1 := selectors_idents r q1 s1 hm1
      exact Or.inr ⟨fun e => hdis h.1 (e ▸ h1.1), fun e => hdis h.1 (e ▸ h1.2),
        fun e => hdis h.2 (e ▸ h1.1), fun e => hdis h.2 (e ▸ h1.2)⟩
    · have h := selectors_idents r q s hm
      have h1 := selectors_idents l q1 s1 hm1
      exact Or.inr ⟨fun e => hdis h1.1 (e ▸ h.1), fun e => hdis h1.2 (e ▸ h.1),
        fun e => hdis h1.1 (e ▸ h.2), fun e => hdis h1.2 (e ▸ h.2)⟩
    · exact ihr hndr hm hm1
  | selector x sel ih =>
    simp only [Node.idents] at hnd
    have hndx := (List.nodup_append.mp hnd).1
    cases x with
    | ident q0 =>
      have h : q = q0 ∧ s = sel := by simpa [Node.selectors] using hm
      have h1 : q1 = q0 ∧ s1 = sel := by simpa [Node.selectors] using hm1
      exact Or.inl ⟨h.1.trans h1.1.symm, h.2.trans h1.2.symm⟩
    | lit t => simp [Node.selectors] at hm
    | seq l r =>
      exact ih hndx (by simpa [Node.selectors] using hm) (by simpa [Node.selectors] using hm1)
    | selector y t =>
      exact ih hndx (by simpa [Node.selectors] using hm) (by simpa [Node.selectors] using hm1)

theorem importsPkg_unique (uses : List (Ident × Object)) (q : Ident) (D D1 : String)
    (h : ImportsPkg uses q D) (h1 : ImportsPkg uses q D1) : D = D1 := by
  obtain ⟨i, nm, hl⟩ := h
  obtain ⟨i1, nm1, hl1⟩ := h1
  rw [hl] at hl1
  injection hl1 with hl1
  injection hl1 with _ _ hk
  injection hk

/-- The rewriter for another package leaves both identifiers of a selector alone. -/
theorem inspectNode_miss (uses : List (Ident × Object)) (D pre : String) (n : Node)
    (names : Ident → String) (hnd : n.idents.Nodup) (q s : Ident)
    (hm : (q, s) ∈ n.selectors) (hq : ¬ImportsPkg uses q D) :
    inspectNode uses D pre n names q = names q ∧ inspectNode uses D pre n names s = names s := by
  constructor
  · apply inspectNode_frame
    intro q1 s1 hm1 hq1
    rcases selectors_disjoint n hnd q s q1 s1 hm hm1 with h | h
    · exact absurd (h.1 ▸ hq1) hq
    · exact ⟨h.1, h.2.1⟩
  · apply inspectNode_frame
    intro q1 s1 hm1 hq1
    rcases selectors_disjoint n hnd q s q1 s1 hm hm1 with h | h
    · exact absurd (h.1 ▸ hq1) hq
    · exact ⟨h.2.2.1, h.2.2.2⟩

theorem inspectDecls_eq (uses : List (Ident × Object)) (D pre : String) (ds : List Decl)
    (names : Ident → String) :
    inspectDecls uses D pre ds names =
      inspectNode uses D pre (seqAll (ds.map Decl.body)) names := by
  induction ds generalizing names with
  | nil => rfl
  | cons d rest ih =>
    show inspectDecls uses D pre rest (inspectNode uses D pre d.body names) =
      inspectNode uses D pre (seqAll (rest.map Decl.body)) (inspectNode uses D pre d.body names)
    exact ih _

theorem inspectFiles_eq (uses : List (Ident × Object)) (D pre : String) (fs : List File)
    (names : Ident → String) :
    inspectFiles uses D pre fs names =
      inspectNode uses D pre
        (seqAll (fs.map (fun f => seqAll (f.decls.map Decl.body)))) names := by
  induction fs generalizing names with
  | nil => rfl
  | cons f rest ih =>
    show inspectFiles uses D pre rest (inspectDecls uses D pre f.decls names) =
      inspectNode uses D pre (seqAll (rest.map (fun f => seqAll (f.decls.map Decl.body))))
        (inspectNode uses D pre (seqAll (f.decls.map Decl.body)) names)
    rw [ih, inspectDecls_eq]

theorem modifyEachFileAST_names (pkg : Package) (D pre : String) :
    (modifyEachFileAST pkg D pre).names =
      inspectNode pkg.uses D pre (pkgTree pkg) pkg.names :=
  inspectFiles_eq pkg.uses D pre pkg.syntax_ pkg.names

theorem rewriteAll_fields (cfg : Config) (load : String → LoadResult) (imps : List String)
    (pkg : Package) :
    (rewriteAll cfg load imps pkg).syntax_ = pkg.syntax_ ∧
      (rewriteAll cfg load imps pkg).uses = pkg.uses ∧
      (rewriteAll cfg load imps pkg).imports = pkg.imports := by
  induction imps generalizing pkg with
  | nil => exact ⟨rfl, rfl, rfl⟩
  | cons imp rest ih =>
    unfold rewriteAll
    split
    · split
      · exact ih _
      · exact ih _
    · exact ih _

theorem rewriteAll_miss (cfg : Config) (load : String → LoadResult) (imps : List String)
    (pkg : Package) (hid : (pkgIdents pkg).Nodup) (D : String) (q s : Ident)
    (hsel : (q, s) ∈ pkgSelectors pkg) (hq : ImportsPkg pkg.uses q D) (hD : D ∉ imps) :
    (rewriteAll cfg load imps pkg).names q = pkg.names q ∧
      (rewriteAll cfg load imps pkg).names s = pkg.names s := by
  induction imps generalizing pkg with
  | nil => exact ⟨rfl, rfl⟩
  | cons imp rest ih =>
    have hne : ¬ImportsPkg pkg.uses q imp := by
      intro h
      exact hD (by rw [importsPkg_unique pkg.uses q D imp hq h]; exact List.mem_cons_self _ _)
    have hrest : D ∉ rest := fun h => hD (List.mem_cons_of_mem _ h)
    unfold rewriteAll
    split
    · split
      · rename_i dep tl _
        have h1 := ih (modifyEachFileAST pkg imp (dep.name ++ "_")) hid hsel hq hrest
        have h2 := inspectNode_miss pkg.uses imp (dep.name ++ "_") (pkgTree pkg) pkg.names
          hid q s hsel hne
        rw [← modifyEachFileAST_names] at h2
        exact ⟨h1.1.trans h2.1, h1.2.trans h2.2⟩
      · exact ih pkg hid hsel hq hrest
    · exact ih pkg hid hsel hq hrest

/-- The effect of all rewriting passes on a selector qualified by an inlined import. -/
theorem rewriteAll_selector (cfg : Config) (load : String → LoadResult) (imps : List String)
    (hnd : imps.Nodup) (pkg : Package) (hid : (pkgIdents pkg).Nodup) (D : String)
    (dep : Package) (q s : Ident) (hD : D ∈ imps) (hi : inlines cfg D = true)
    (hl : (load D).pkgs.head? = some dep) (hsel : (q, s) ∈ pkgSelectors pkg)
    (hq : ImportsPkg pkg.uses q D) :
    (rewriteAll cfg load imps pkg).names q = "@@@" ∧
      (rewriteAll cfg load imps pkg).names s = dep.name ++ "_" ++ pkg.names s := by
  induction imps generalizing pkg with
  | nil => simp at hD
  | cons imp rest ih =>
    rw [List.nodup_cons] at hnd
    by_cases he : imp = D
    · subst he
      obtain ⟨tl, hpk⟩ : ∃ tl, (load imp).pkgs = dep :: tl := by
        cases hp : (load imp).pkgs with
        | nil => rw [hp] at hl; simp at hl
        | cons a tl =>
          rw [hp] at hl
          simp only [List.head?_cons, Option.some.injEq] at hl
          exact ⟨tl, by rw [hl]⟩
      have h1 := rewriteAll_miss cfg load rest (modifyEachFileAST pkg imp (dep.name ++ "_"))
        hid imp q s hsel hq hnd.1
      have h2 := inspectNode_hit pkg.uses imp (dep.name ++ "_") (pkgTree pkg) pkg.names
        hid q s hsel hq
      rw [← modifyEachFileAST_names] at h2
      simp only [rewriteAll, hi, if_true, hpk]
      exact ⟨h1.1.trans h2.1, h1.2.trans (by rw [h2.2, String.append_assoc])⟩
    · have hrest : D ∈ rest := by
        rcases List.mem_cons.mp hD with h | h
        · exact absurd h.symm he
        · exact h
      have hne : ¬ImportsPkg pkg.uses q imp := by
        intro h
        exact he (importsPkg_unique pkg.uses q D imp hq h).symm
      unfold rewriteAll
      split
      · split
        · rename_i dep1 tl _
          have h1 := ih hnd.2 (modifyEachFileAST pkg imp (dep1.name ++ "_")) hid hrest hsel hq
          have h2 := inspectNode_miss pkg.uses imp (dep1.name ++ "_") (pkgTree pkg) pkg.names
            hid q s hsel hne
          rw [← modifyEachFileAST_names] at h2
          exact ⟨h1.1, by rw [h1.2, h2.2]⟩
        · exact ih hnd.2 pkg hid hrest hsel hq
      · exact ih hnd.2 pkg hid hrest hsel hq

theorem nodup_insertSorted (k : String) (l : List String) (hk : k ∉ l) (hl : l.Nodup) :
    (insertSorted k l).Nodup := by
  induction l with
  | nil => simp [insertSorted]
  | cons x xs ih =>
    rw [List.nodup_cons] at hl
    by_cases h : strLe k.data x.data = true
    · simp only [insertSorted, h, if_true]
      exact List.nodup_cons.mpr ⟨hk, List.nodup_cons.mpr hl⟩
    · have h1 : strLe k.data x.data = false := by simpa using h
      simp only [insertSorted, h1, Bool.false_eq_true, if_false]
      refine List.nodup_cons.mpr ⟨?_, ih (fun hm => hk (List.mem_cons_of_mem _ hm)) hl.2⟩
      intro hm
      rcases (mem_insertSorted k xs x).mp hm with he | hx
      · exact hk (by rw [he]; exact List.mem_cons_self _ _)
      · exact hl.1 hx

theorem nodup_sortedImports (l : List String) (h : l.Nodup) : (sortedImports l).Nodup := by
  unfold sortedImports
  induction l with
  | nil => simp [sortStrings]
  | cons x xs ih =>
    rw [List.nodup_cons] at h
    simp only [sortStrings]
    apply nodup_insertSorted
    · intro hm
      exact h.1 ((mem_sortedImports xs x).mp hm)
    · exact ih h.2

/-! ## Emission of a rewritten reference -/

theorem replaceChars_no_at (t : List Char) (h : '@' ∉ t) :
    replaceChars ['@', '@', '@', '.'] [] 0 t = t := by
  induction t with
  | nil => rfl
  | cons c cs ih =>
    have hc : c ≠ '@' := fun e => h (by simp [e])
    have hcs : '@' ∉ cs := fun hm => h (List.mem_cons_of_mem _ hm)
    have hp : List.isPrefixOf ['@', '@', '@', '.'] (c :: cs) = false := by
      simp [List.isPrefixOf, Ne.symm hc]
    simp only [replaceChars, hp, Bool.false_eq_true, if_false, ih hcs]

/-- Stripping the sentinel from `@@@.name` leaves `name`. -/
theorem bytesReplace_sentinel (t : String) (h : '@' ∉ t.data) :
    bytesReplace ("@@@" ++ "." ++ t) "@@@." "" = t := by
  obtain ⟨cs⟩ := t
  show (⟨replaceChars ['@', '@', '@', '.'] [] 0 ('@' :: '@' :: '@' :: '.' :: cs)⟩ : String) = ⟨cs⟩
  have h1 : replaceChars ['@', '@', '@', '.'] [] 0 ('@' :: '@' :: '@' :: '.' :: cs) =
      replaceChars ['@', '@', '@', '.'] [] 0 cs := by
    simp [replaceChars, List.isPrefixOf]
  rw [h1, replaceChars_no_at cs h]

theorem printNode_selector_stripped (names : Ident → String) (q s : Ident)
    (hq : names q = "@@@") (hs : '@' ∉ (names s).data) :
    bytesReplace (printNode names (.selector (.ident q) s)) "@@@." "" = names s := by
  show bytesReplace (names q ++ "." ++ names s) "@@@." "" = names s
  rw [hq]
  exact bytesReplace_sentinel (names s) hs

theorem originAt_syntaxWF (load : String → LoadResult) (p : String) (M0 : Package)
    (hwf : ∀ p L, (load p).pkgs.head? = some L → SyntaxWF L) (h : OriginAt load p M0) :
    SyntaxWF M0 := by
  obtain ⟨L, hL, hcase⟩ := h
  have hw := hwf p L hL
  rcases hcase with h | ⟨objs, _, h⟩
  · rw [h]; exact hw
  · rw [h]; exact hw

theorem diamond_syntaxWF : ∀ p L, (diamondLoad p).pkgs.head? = some L → SyntaxWF L := by
  intro p L h
  unfold diamondLoad at h
  split_ifs at h with h1 h2 h3 h4 <;> simp at h <;> subst h
  · exact ⟨by decide, by decide⟩
  · exact ⟨by decide, by decide⟩
  · exact ⟨by decide, by decide⟩
  · exact ⟨by decide, by decide⟩

/-! ## Stripping the sentinel from the printed text -/

theorem replaceChars_clean_append (a b : List Char) (h : '@' ∉ a) :
    replaceChars ['@', '@', '@', '.'] [] 0 (a ++ b) =
      a ++ replaceChars ['@', '@', '@', '.'] [] 0 b := by
  induction a with
  | nil => rfl
  | cons c cs ih =>
    have hc : c ≠ '@' := fun e => h (by simp [e])
    have hcs : '@' ∉ cs := fun hm => h (List.mem_cons_of_mem _ hm)
    have hp : List.isPrefixOf ['@', '@', '@', '.'] (c :: (cs ++ b)) = false := by
      simp [List.isPrefixOf, Ne.symm hc]
    simp only [List.cons_append, replaceChars, List.append_eq, hp, Bool.false_eq_true,
      if_false, ih hcs]

theorem replaceChars_sentinel (b : List Char) :
    replaceChars ['@', '@', '@', '.'] [] 0 ('@' :: '@' :: '@' :: '.' :: b) =
      replaceChars ['@', '@', '@', '.'] [] 0 b := by
  simp [replaceChars, List.isPrefixOf]

theorem clean_append (a b : String) (ha : '@' ∉ a.data) (hb : '@' ∉ b.data) :
    '@' ∉ (a ++ b).data := by
  rw [String.data_append, List.mem_append]
  exact fun h => h.elim ha hb

theorem clean_prefixed (nm s : String) (hn : '@' ∉ nm.data) (hs : '@' ∉ s.data) :
    '@' ∉ (nm ++ "_" ++ s).data :=
  clean_append _ _ (clean_append _ _ hn (by decide)) hs

/-- The printed text of a tree with the sentinel stripped, in front of any
text `rest`, is the expected text of the tree. -/
theorem strip_printNode (cfg : Config) (load : String → LoadResult) (pkg : Package)
    (names : Ident → String) (n : Node) (h : NamesResolved cfg load pkg names n)
    (rest : List Char) :
    replaceChars ['@', '@', '@', '.'] [] 0 ((printNode names n).data ++ rest) =
      (printInlined cfg load pkg n).data ++ replaceChars ['@', '@', '@', '.'] [] 0 rest := by
  induction n generalizing rest with
  | ident id =>
    simp only [NamesResolved] at h
    simp only [printNode, printInlined, h.1]
    exact replaceChars_clean_append _ _ h.2
  | lit t =>
    simp only [NamesResolved] at h
    simp only [printNode, printInlined]
    exact replaceChars_clean_append _ _ h
  | seq l r ihl ihr =>
    simp only [NamesResolved] at h
    simp only [printNode, printInlined, String.data_append, List.append_assoc]
    rw [ihl h.1, ihr h.2]
  | selector x sel ih =>
    have hdot : ('@' : Char) ∉ ['.'] := by decide
    cases x with
    | ident q =>
      cases hr : resolveImport cfg load pkg q with
      | some nm =>
        simp only [NamesResolved, hr] at h
        obtain ⟨hq, hs, hc⟩ := h
        simp only [printNode, printInlined, hr, hq, hs]
        have e : ("@@@" ++ "." ++ (nm ++ "_" ++ pkg.names sel)).data ++ rest =
            '@' :: '@' :: '@' :: '.' :: ((nm ++ "_" ++ pkg.names sel).data ++ rest) := by
          simp only [String.data_append]
          rfl
        rw [e, replaceChars_sentinel, replaceChars_clean_append _ _ hc]
      | none =>
        simp only [NamesResolved, hr] at h
        obtain ⟨⟨hq, hqc⟩, hs, hsc⟩ := h
        simp only [printNode, printInlined, hr, hq, hs]
        exact replaceChars_clean_append _ _
          (clean_append _ _ (clean_append _ _ hqc (by decide)) hsc)
    | lit t =>
      simp only [NamesResolved] at h
      obtain ⟨hx, hs, hsc⟩ := h
      have e : (printNode names ((Node.lit t).selector sel)).data ++ rest =
          (printNode names (Node.lit t)).data ++ (".".data ++ ((pkg.names sel).data ++ rest)) := by
        simp only [printNode, hs, String.data_append, List.append_assoc]
      rw [e, ih hx, replaceChars_clean_append _ _ (by decide : '@' ∉ ".".data),
        replaceChars_clean_append _ _ hsc]
      simp only [printInlined, String.data_append, List.append_assoc]
    | seq l r =>
      simp only [NamesResolved] at h
      obtain ⟨hx, hs, hsc⟩ := h
      have e : (printNode names ((Node.seq l r).selector sel)).data ++ rest =
          (printNode names (Node.seq l r)).data ++ (".".data ++ ((pkg.names sel).data ++ rest)) := by
        simp only [printNode, hs, String.data_append, List.append_assoc]
      rw [e, ih hx, replaceChars_clean_append _ _ (by decide : '@' ∉ ".".data),
        replaceChars_clean_append _ _ hsc]
      simp only [printInlined, String.data_append, List.append_assoc]
    | selector y t =>
      simp only [NamesResolved] at h
      obtain ⟨hx, hs, hsc⟩ := h
      have e : (printNode names ((Node.selector y t).selector sel)).data ++ rest =
          (printNode names (Node.selector y t)).data ++
            (".".data ++ ((pkg.names sel).data ++ rest)) := by
        simp only [printNode, hs, String.data_append, List.append_assoc]
      rw [e, ih hx, replaceChars_clean_append _ _ (by decide : '@' ∉ ".".data),
        replaceChars_clean_append _ _ hsc]
      simp only [printInlined, String.data_append, List.append_assoc]

/-- The text the emitter writes for a tree, the printed text with every `@@@.`
removed, is the expected text of the tree. -/
theorem bytesReplace_printNode (cfg : Config) (load : String → LoadResult) (pkg : Package)
    (names : Ident → String) (n : Node) (h : NamesResolved cfg load pkg names n) :
    bytesReplace (printNode names n) "@@@." "" = printInlined cfg load pkg n := by
  have h1 := strip_printNode cfg load pkg names n h []
  rw [List.append_nil] at h1
  apply String.ext
  show replaceChars ['@', '@', '@', '.'] [] 0 (printNode names n).data = _
  rw [h1]
  simp [replaceChars]

/-! ## The names of a rewritten package -/

theorem plain_idents (n : Node) (j : Ident) (h : j ∈ n.plain) : j ∈ n.idents := by
  induction n with
  | ident id => simpa [Node.plain, Node.idents] using h
  | lit t => simp [Node.plain] at h
  | seq l r ihl ihr =>
    simp only [Node.plain, List.mem_append] at h
    simp only [Node.idents, List.mem_append]
    exact h.imp ihl ihr
  | selector x sel ih =>
    simp only [Node.idents, List.mem_append, List.mem_singleton]
    cases x with
    | ident q => simp [Node.plain] at h
    | lit t =>
      simp only [Node.plain, List.mem_append, List.mem_singleton] at h
      exact h.imp ih id
    | seq l r =>
      simp only [Node.plain, List.mem_append, List.mem_singleton] at h
      have h1 : j ∈ (Node.seq l r).plain ∨ j = sel := by
        simpa [Node.plain, or_assoc] using h
      exact h1.imp ih id
    | selector y t =>
      have h1 : j ∈ (Node.selector y t).plain ∨ j = sel := by
        simpa [Node.plain] using h
      exact h1.imp ih id

/-- An identifier that is no part of a package-qualified selector differs from
both identifiers of every such selector. -/
theorem plain_disjoint (n : Node) (hnd : n.idents.Nodup) (j q s : Ident)
    (hj : j ∈ n.plain) (hm : (q, s) ∈ n.selectors) : j ≠ q ∧ j ≠ s := by
  induction n with
  | ident id => simp [Node.selectors] at hm
  | lit t => simp [Node.selectors] at hm
  | seq l r ihl ihr =>
    simp only [Node.idents] at hnd
    have hdis := List.disjoint_of_nodup_append hnd
    have hndl := (List.nodup_append.mp hnd).1
    have hndr := (List.nodup_append.mp hnd).2.1
    simp only [Node.plain, List.mem_append] at hj
    simp only [Node.selectors, List.mem_append] at hm
    rcases hj with hj | hj <;> rcases hm with hm | hm
    · exact ihl hndl hj hm
    · have h1 := plain_idents l j hj
      have h2 := selectors_idents r q s hm
      exact ⟨fun e => hdis h1 (e ▸ h2.1), fun e => hdis h1 (e ▸ h2.2)⟩
    · have h1 := plain_idents r j hj
      have h2 := selectors_idents l q s hm
      exact ⟨fun e => hdis h2.1 (e ▸ h1), fun e => hdis h2.2 (e ▸ h1)⟩
    · exact ihr hndr hj hm
  | selector x sel ih =>
    simp only [Node.idents] at hnd
    have hndx := (List.nodup_append.mp hnd).1
    have hdis := List.disjoint_of_nodup_append hnd
    cases x with
    | ident q0 => simp [Node.plain] at hj
    | lit t => simp [Node.selectors] at hm
    | seq l r =>
      have hm1 : (q, s) ∈ (Node.seq l r).selectors := by simpa [Node.selectors] using hm
      have hj1 : j ∈ (Node.seq l r).plain ∨ j = sel := by
        simpa [Node.plain, or_assoc] using hj
      rcases hj1 with hj1 | hj1
      · exact ih hndx hj1 hm1
      · have h2 := selectors_idents _ q s hm1
        subst hj1
        exact ⟨fun e => hdis (e ▸ h2.1) (List.mem_singleton_self _),
          fun e => hdis (e ▸ h2.2) (List.mem_singleton_self _)⟩
    | selector y t =>
      have hm1 : (q, s) ∈ (Node.selector y t).selectors := by simpa [Node.selectors] using hm
      have hj1 : j ∈ (Node.selector y t).plain ∨ j = sel := by simpa [Node.plain] using hj
      rcases hj1 with hj1 | hj1
      · exact ih hndx hj1 hm1
      · have h2 := selectors_idents _ q s hm1
        subst hj1
        exact ⟨fun e => hdis (e ▸ h2.1) (List.mem_singleton_self _),
          fun e => hdis (e ▸ h2.2) (List.mem_singleton_self _)⟩

theorem resolveImport_some (cfg : Config) (load : String → LoadResult) (pkg : Package)
    (q : Ident) (nm : String) (h : resolveImport cfg load pkg q = some nm) :
    ∃ D dep, ImportsPkg pkg.uses q D ∧ D ∈ pkg.imports ∧ inlines cfg D = true ∧
      (load D).pkgs.head? = some dep ∧ nm = dep.name := by
  unfold resolveImport at h
  cases hl : lookupUse pkg.uses q with
  | none => simp [hl] at h
  | some o =>
    obtain ⟨i, onm, k⟩ := o
    cases k with
    | typeName => simp [hl] at h
    | other => simp [hl] at h
    | pkgName D =>
      simp only [hl] at h
      by_cases hc : D ∈ pkg.imports ∧ inlines cfg D = true
      · simp only [hc, and_self, if_true] at h
        cases hp : (load D).pkgs with
        | nil => simp [hp] at h
        | cons dep tl =>
          simp only [hp, Option.some.injEq] at h
          exact ⟨D, dep, ⟨i, onm, hl⟩, hc.1, hc.2, by rw [hp]; rfl, h.symm⟩
      · simp [hc] at h

theorem resolveImport_of (cfg : Config) (load : String → LoadResult) (pkg : Package)
    (q : Ident) (D : String) (hq : ImportsPkg pkg.uses q D) (hD : D ∈ pkg.imports)
    (hi : inlines cfg D = true) (hne : (load D).pkgs ≠ []) :
    ∃ nm, resolveImport cfg load pkg q = some nm := by
  obtain ⟨i, onm, hl⟩ := hq
  obtain ⟨dep, tl, hp⟩ := List.exists_cons_of_ne_nil hne
  exact ⟨dep.name, by simp [resolveImport, hl, hD, hi, hp]⟩

/-- The rewriting passes leave an identifier alone that is no part of a
selector qualified by an inlined import. -/
theorem rewriteAll_frame (cfg : Config) (load : String → LoadResult) (imps : List String)
    (pkg : Package) (j : Ident)
    (h : ∀ D ∈ imps, inlines cfg D = true → (load D).pkgs ≠ [] →
      ∀ q s, (q, s) ∈ pkgSelectors pkg → ImportsPkg pkg.uses q D → j ≠ q ∧ j ≠ s) :
    (rewriteAll cfg load imps pkg).names j = pkg.names j := by
  induction imps generalizing pkg with
  | nil => rfl
  | cons imp rest ih =>
    have hrest : ∀ D ∈ rest, inlines cfg D = true → (load D).pkgs ≠ [] →
        ∀ q s, (q, s) ∈ pkgSelectors pkg → ImportsPkg pkg.uses q D → j ≠ q ∧ j ≠ s :=
      fun D hD => h D (List.mem_cons_of_mem _ hD)
    cases hi : inlines cfg imp with
    | false =>
      simp only [rewriteAll, hi, Bool.false_eq_true, if_false]
      exact ih pkg hrest
    | true =>
      cases hp : (load imp).pkgs with
      | nil =>
        simp only [rewriteAll, hi, if_true, hp]
        exact ih pkg hrest
      | cons dep tl =>
        simp only [rewriteAll, hi, if_true, hp]
        rw [ih (modifyEachFileAST pkg imp (dep.name ++ "_")) hrest, modifyEachFileAST_names]
        apply inspectNode_frame
        exact h imp (List.mem_cons_self _ _) hi (by rw [hp]; exact List.cons_ne_nil _ _)

/-- The names of a package are resolved at a tree when they are at its plain
identifiers and at its package-qualified selectors. -/
theorem namesResolved_of (cfg : Config) (load : String → LoadResult) (pkg : Package)
    (names : Ident → String) (n : Node)
    (hclean : ∀ j, '@' ∉ (pkg.names j).data) (hlits : ∀ t ∈ n.lits, '@' ∉ t.data)
    (hplain : ∀ j ∈ n.plain, names j = pkg.names j)
    (hsome : ∀ q s nm, (q, s) ∈ n.selectors → resolveImport cfg load pkg q = some nm →
      names q = "@@@" ∧ names s = nm ++ "_" ++ pkg.names s ∧ '@' ∉ nm.data)
    (hnone : ∀ q s, (q, s) ∈ n.selectors → resolveImport cfg load pkg q = none →
      names q = pkg.names q ∧ names s = pkg.names s) :
    NamesResolved cfg load pkg names n := by
  induction n with
  | ident id => exact ⟨hplain id (by simp [Node.plain]), hclean id⟩
  | lit t => exact hlits t (by simp [Node.lits])
  | seq l r ihl ihr =>
    exact ⟨ihl (fun t ht => hlits t (by simp [Node.lits, ht]))
        (fun j hj => hplain j (by simp [Node.plain, hj]))
        (fun q s nm hm => hsome q s nm (by simp [Node.selectors, hm]))
        (fun q s hm => hnone q s (by simp [Node.selectors, hm])),
      ihr (fun t ht => hlits t (by simp [Node.lits, ht]))
        (fun j hj => hplain j (by simp [Node.plain, hj]))
        (fun q s nm hm => hsome q s nm (by simp [Node.selectors, hm]))
        (fun q s hm => hnone q s (by simp [Node.selectors, hm]))⟩
  | selector x sel ih =>
    cases x with
    | ident q =>
      cases hr : resolveImport cfg load pkg q with
      | some nm =>
        simp only [NamesResolved, hr]
        obtain ⟨h1, h2, h3⟩ := hsome q sel nm (by simp [Node.selectors]) hr
        exact ⟨h1, h2, clean_prefixed nm _ h3 (hclean sel)⟩
      | none =>
        simp only [NamesResolved, hr]
        obtain ⟨h1, h2⟩ := hnone q sel (by simp [Node.selectors]) hr
        exact ⟨⟨h1, hclean q⟩, h2, hclean sel⟩
    | lit t =>
      simp only [NamesResolved]
      exact ⟨hlits t (by simp [Node.lits]), hplain sel (by simp [Node.plain]), hclean sel⟩
    | seq l r =>
      simp only [NamesResolved]
      refine ⟨?_, hplain sel (by simp [Node.plain]), hclean sel⟩
      exact ih (fun t ht => hlits t (by simpa [Node.lits] using ht))
        (fun j hj => hplain j (by
          have : j ∈ (Node.seq l r).plain := hj
          simp only [Node.plain, List.mem_append, List.mem_singleton]
          exact Or.inl (by simpa [Node.plain] using this)))
        (fun q s nm hm => hsome q s nm (by simpa [Node.selectors] using hm))
        (fun q s hm => hnone q s (by simpa [Node.selectors] using hm))
    | selector y t =>
      simp only [NamesResolved]
      refine ⟨?_, hplain sel (by simp [Node.plain]), hclean sel⟩
      exact ih (fun t ht => hlits t (by simpa [Node.lits] using ht))
        (fun j hj => hplain j (by
          have : j ∈ (Node.selector y t).plain := hj
          simp only [Node.plain, List.mem_append, List.mem_singleton]
          exact Or.inl this))
        (fun q s nm hm => hsome q s nm (by simpa [Node.selectors] using hm))
        (fun q s hm => hnone q s (by simpa [Node.selectors] using hm))

theorem resolveImport_eq (cfg : Config) (load : String → LoadResult) (pkg : Package)
    (q : Ident) (D : String) (dep : Package) (hq : ImportsPkg pkg.uses q D)
    (hD : D ∈ pkg.imports) (hi : inlines cfg D = true)
    (hl : (load D).pkgs.head? = some dep) :
    resolveImport cfg load pkg q = some dep.name := by
  obtain ⟨i, onm, hu⟩ := hq
  cases hp : (load D).pkgs with
  | nil => rw [hp] at hl; simp at hl
  | cons a tl =>
    rw [hp] at hl
    simp only [List.head?_cons, Option.some.injEq] at hl
    subst hl
    simp [resolveImport, hu, hD, hi, hp]

/-- After all rewriting passes the names of a package are resolved at its whole syntax. -/
theorem namesResolved_rewriteAll (cfg : Config) (load : String → LoadResult) (M0 : Package)
    (hid : (pkgIdents M0).Nodup) (himp : M0.imports.Nodup)
    (hclean : ∀ j, '@' ∉ (M0.names j).data)
    (hlits : ∀ t ∈ (pkgTree M0).lits, '@' ∉ t.data)
    (hdep : ∀ D dep, (load D).pkgs.head? = some dep → '@' ∉ dep.name.data) :
    NamesResolved cfg load M0
      (rewriteAll cfg load (sortedImports M0.imports) M0).names (pkgTree M0) := by
  apply namesResolved_of cfg load M0 _ _ hclean hlits
  · intro j hj
    apply rewriteAll_frame
    intro D _ _ _ q s hm _
    exact plain_disjoint (pkgTree M0) hid j q s hj hm
  · intro q s nm hm hr
    obtain ⟨D, dep, hq, hD, hi, hl, hnm⟩ := resolveImport_some cfg load M0 q nm hr
    have h := rewriteAll_selector cfg load (sortedImports M0.imports)
      (nodup_sortedImports _ himp) M0 hid D dep q s ((mem_sortedImports _ D).mpr hD) hi hl hm hq
    rw [hnm]
    exact ⟨h.1, h.2, hdep D dep hl⟩
  · intro q s hm hr
    have hframe : ∀ D ∈ sortedImports M0.imports, inlines cfg D = true → (load D).pkgs ≠ [] →
        ∀ q1 s1, (q1, s1) ∈ pkgSelectors M0 → ImportsPkg M0.uses q1 D →
          (q ≠ q1 ∧ q ≠ s1) ∧ (s ≠ q1 ∧ s ≠ s1) := by
      intro D hD hi hne q1 s1 hm1 hq1
      rcases selectors_disjoint (pkgTree M0) hid q s q1 s1 hm hm1 with h | h
      · obtain ⟨nm, hnm⟩ := resolveImport_of cfg load M0 q1 D hq1
          ((mem_sortedImports _ D).mp hD) hi hne
        rw [← h.1, hr] at hnm
        exact absurd hnm (by simp)
      · exact ⟨⟨h.1, h.2.1⟩, ⟨h.2.2.1, h.2.2.2⟩⟩
    constructor
    · apply rewriteAll_frame
      intro D hD hi hne q1 s1 hm1 hq1
      exact (hframe D hD hi hne q1 s1 hm1 hq1).1
    · apply rewriteAll_frame
      intro D hD hi hne q1 s1 hm1 hq1
      exact (hframe D hD hi hne q1 s1 hm1 hq1).2

theorem namesResolved_seqAll (cfg : Config) (load : String → LoadResult) (pkg : Package)
    (names : Ident → String) (ns : List Node)
    (h : NamesResolved cfg load pkg names (seqAll ns)) :
    ∀ n ∈ ns, NamesResolved cfg load pkg names n := by
  induction ns with
  | nil => intro n hn; simp at hn
  | cons a rest ih =>
    simp only [seqAll, NamesResolved] at h
    intro n hn
    rcases List.mem_cons.mp hn with he | ht
    · rw [he]; exact h.1
    · exact ih h.2 n ht

theorem namesResolved_decl (cfg : Config) (load : String → LoadResult) (pkg : Package)
    (names : Ident → String) (h : NamesResolved cfg load pkg names (pkgTree pkg))
    (f : File) (hf : f ∈ pkg.syntax_) (d : Decl) (hd : d ∈ f.decls) :
    NamesResolved cfg load pkg names d.body := by
  have h1 := namesResolved_seqAll cfg load pkg names _ h
    (seqAll (f.decls.map Decl.body)) (List.mem_map_of_mem _ hf)
  exact namesResolved_seqAll cfg load pkg names _ h1 d.body (List.mem_map_of_mem _ hd)

/-! ## The emitter against the expected emission -/

theorem writeDecls_eq_emit (names : Ident → String) (render : Node → String) (f : File)
    (ds : List Decl)
    (h : ∀ d ∈ ds, bytesReplace (printNode names d.body) "@@@." "" = render d.body)
    (out : Buffer) (last : Nat) :
    writeDecls names f ds out last = emitDecls render f ds out last := by
  induction ds generalizing out last with
  | nil => rfl
  | cons d rest ih =>
    have hrest : ∀ d ∈ rest, bytesReplace (printNode names d.body) "@@@." "" = render d.body :=
      fun d hd => h d (List.mem_cons_of_mem _ hd)
    by_cases himp : d.isImportDecl = true
    · simp only [writeDecls, emitDecls, himp, if_true]
      exact ih hrest out last
    · have himp1 : d.isImportDecl = false := by simpa using himp
      simp only [writeDecls, emitDecls, himp1, Bool.false_eq_true, if_false,
        h d (List.mem_cons_self _ _)]
      exact ih hrest _ _

theorem writeFiles_eq_emit (names : Ident → String) (render : Node → String)
    (fs : List File)
    (h : ∀ f ∈ fs, ∀ d ∈ f.decls,
      bytesReplace (printNode names d.body) "@@@." "" = render d.body)
    (out : Buffer) :
    writeFiles names fs out = emitFiles render fs out := by
  induction fs generalizing out with
  | nil => rfl
  | cons f rest ih =>
    have hf : writeFile names f out = emitFile render f out := by
      simp only [writeFile, emitFile,
        writeDecls_eq_emit names render f f.decls (h f (List.mem_cons_self _ _))]
    simp only [writeFiles, emitFiles, hf]
    exact ih (fun f1 hf1 => h f1 (List.mem_cons_of_mem _ hf1)) _

/-! ## Names of the package the walker starts on -/

theorem renameDefs_clean (objs : List Object) (pre : String)
    (defs : List (Ident × Option Object)) (names : Ident → String) (j : Ident)
    (hpre : '@' ∉ pre.data) (hobj : ∀ o ∈ defs.filterMap Prod.snd, '@' ∉ o.name.data)
    (h0 : '@' ∉ (names j).data) :
    '@' ∉ (renameDefs objs pre defs names j).data := by
  induction defs generalizing names with
  | nil => exact h0
  | cons d rest ih =>
    obtain ⟨k, v⟩ := d
    cases v with
    | none =>
      simp only [renameDefs]
      exact ih names (fun o ho => hobj o (by simpa [List.filterMap_cons] using ho)) h0
    | some obj =>
      have hrest : ∀ o ∈ rest.filterMap Prod.snd, '@' ∉ o.name.data :=
        fun o ho => hobj o (by simp [List.filterMap_cons, ho])
      have hthis : '@' ∉ obj.name.data := hobj obj (by simp [List.filterMap_cons])
      by_cases hm : obj ∈ objs
      · simp only [renameDefs, hm, if_true]
        apply ih _ hrest
        by_cases hj : j = k
        · rw [hj, setName_same]; exact clean_append _ _ hpre hthis
        · rw [setName_other _ _ _ _ hj]; exact h0
      · simp only [renameDefs, hm, if_false]
        exact ih names hrest h0

theorem renameUses_clean (objs : List Object) (pre : String)
    (uses : List (Ident × Object)) (names : Ident → String) (j : Ident)
    (hpre : '@' ∉ pre.data) (hobj : ∀ x ∈ uses, '@' ∉ x.2.name.data)
    (h0 : '@' ∉ (names j).data) :
    '@' ∉ (renameUses objs pre uses names j).data := by
  induction uses generalizing names with
  | nil => exact h0
  | cons d rest ih =>
    obtain ⟨k, obj⟩ := d
    have hrest : ∀ x ∈ rest, '@' ∉ x.2.name.data :=
      fun x hx => hobj x (List.mem_cons_of_mem _ hx)
    have hthis : '@' ∉ obj.name.data := hobj (k, obj) (List.mem_cons_self _ _)
    by_cases hm : obj ∈ objs
    · simp only [renameUses, hm, if_true]
      apply ih _ hrest
      by_cases hj : j = k
      · rw [hj, setName_same]; exact clean_append _ _ hpre hthis
      · rw [setName_other _ _ _ _ hj]; exact h0
    · simp only [renameUses, hm, if_false]
      exact ih names hrest h0

theorem originAt_clean (load : String → LoadResult) (p : String) (M0 : Package)
    (hhyg : ∀ p L, (load p).pkgs.head? = some L → Hygienic L) (h : OriginAt load p M0) :
    (∀ j, '@' ∉ (M0.names j).data) ∧ ∀ t ∈ (pkgTree M0).lits, '@' ∉ t.data := by
  obtain ⟨L, hL, hcase⟩ := h
  have hy := hhyg p L hL
  rcases hcase with h | ⟨objs, _, h⟩
  · rw [h]; exact ⟨hy.identsClean, hy.litsClean⟩
  · rw [h]
    refine ⟨fun j => ?_, hy.litsClean⟩
    have hpre : '@' ∉ (L.name ++ "_").data := clean_append _ _ hy.nameClean (by decide)
    exact renameUses_clean objs _ L.uses _ j hpre hy.usesClean
      (renameDefs_clean objs _ L.defs _ j hpre hy.defsClean (hy.identsClean j))

/-! ## The output of a full run -/

theorem rewrittenFrom_rewriteAll (cfg : Config) (load : String → LoadResult)
    (hwf : ∀ p L, (load p).pkgs.head? = some L → SyntaxWF L)
    (hhyg : ∀ p L, (load p).pkgs.head? = some L → Hygienic L)
    (p : String) (M0 : Package) (horigin : OriginAt load p M0) :
    RewrittenFrom cfg load (rewriteAll cfg load (sortedImports M0.imports) M0) M0 := by
  have hfields := rewriteAll_fields cfg load (sortedImports M0.imports) M0
  have hswf := originAt_syntaxWF load p M0 hwf horigin
  have hclean := originAt_clean load p M0 hhyg horigin
  have hdep : ∀ D dep, (load D).pkgs.head? = some dep → '@' ∉ dep.name.data :=
    fun D dep hl => (hhyg D dep hl).nameClean
  have hres := namesResolved_rewriteAll cfg load M0 hswf.1 hswf.2 hclean.1 hclean.2 hdep
  refine ⟨⟨p, horigin⟩, hfields.1, hfields.2.1, ?_, ?_⟩
  · intro out
    show writeFiles _ (rewriteAll cfg load (sortedImports M0.imports) M0).syntax_ out =
      emitFiles (printInlined cfg load M0) M0.syntax_ out
    rw [hfields.1]
    apply writeFiles_eq_emit
    intro f hf d hd
    exact bytesReplace_printNode cfg load M0 _ d.body
      (namesResolved_decl cfg load M0 _ hres f hf d hd)
  · intro D dep q s hD hi hl hsel hq
    have hrw := rewriteAll_selector cfg load (sortedImports M0.imports)
      (nodup_sortedImports _ hswf.2) M0 hswf.1 D dep q s
      ((mem_sortedImports _ D).mpr hD) hi hl hsel hq
    have hc : '@' ∉ (dep.name ++ "_" ++ M0.names s).data :=
      clean_prefixed _ _ (hdep D dep hl) (hclean.1 s)
    refine ⟨hrw.1, hrw.2, ?_, ?_, ?_⟩
    · simp only [printInlined, resolveImport_eq cfg load M0 q D dep hq hD hi hl]
    · rw [printNode_selector_stripped _ q s hrw.1 (by rw [hrw.2]; exact hc), hrw.2]
    · intro hinfo d o hd ho hname
      rw [renamedName_scope dep hinfo d o hd ho, hname, hrw.2]

theorem exists_related {α β : Type} (P : α → β → Prop) (l : List α)
    (h : ∀ x ∈ l, ∃ y, P x y) : ∃ l1, List.Forall₂ P l l1 := by
  induction l with
  | nil => exact ⟨[], List.Forall₂.nil⟩
  | cons a rest ih =>
    obtain ⟨y, hy⟩ := h a (List.mem_cons_self _ _)
    obtain ⟨l1, hl1⟩ := ih (fun x hx => h x (List.mem_cons_of_mem _ hx))
    exact ⟨y :: l1, List.Forall₂.cons hy hl1⟩

theorem writeAll_eq_emitAll (cfg : Config) (load : String → LoadResult)
    (written origins : List Package)
    (h : List.Forall₂ (RewrittenFrom cfg load) written origins) (out : Buffer) :
    writeAll out written = emitAllInlined cfg load out origins := by
  induction h generalizing out with
  | nil => rfl
  | cons hM _ ih =>
    simp only [writeAll, emitAllInlined, hM.2.2.2.1 out]
    exact ih _

/-- C2: after a full run on an acyclic graph whose inlined imports resolve and
whose packages are well formed (the syntax is a tree, map keys are unique,
names and tokens are Go source without `@`), the run returns, and the returned
buffer `codeOut` is the expected emission of the packages `origins` the walker
started on: the text of every declaration, in which every selector expression
whose qualifier resolves through the use map to the import of a module `D`
classified Inline stands as the unqualified identifier
`<D's short name>_<selected name>`, so that in the text of the declarations no
reference qualified by the alias of `D` remains.  Each package `M` passed to the emitter
is one of `origins` rewritten (`RewrittenFrom`): in it the qualifier of such a
selector carries the sentinel `@@@` and the selected identifier the new name,
which is the name under which the renamer emits the declaration of `D`. -/
theorem references_rewritten (cfg : Config) (load : String → LoadResult)
    (rank : String → Nat) (hg : AcyclicGraph cfg load rank) (pkgName : String) (root : Package)
    (hroot : (load pkgName).pkgs.head? = some root) (fuel : Nat) (hfuel : rank pkgName < fuel)
    (hwf : ∀ p L, (load p).pkgs.head? = some L → SyntaxWF L)
    (hhyg : ∀ p L, (load p).pkgs.head? = some L → Hygienic L) :
    ∃ st origins, traverseDependencyTree cfg load fuel pkgName = .ok st ∧
      st.codeOut = emitAllInlined cfg load ⟨"", []⟩ origins ∧
      st.codeOut = writeAll ⟨"", []⟩ st.written ∧
      List.Forall₂ (RewrittenFrom cfg load) st.written origins := by
  obtain ⟨st, new, hrun, ⟨_, _, _, hw, hc, hnew, _⟩, _⟩ :=
    traverseDependencyTree_spec cfg load rank hg pkgName root hroot fuel hfuel
  have hw1 : st.written = new := by simpa using hw
  have hall : ∀ M ∈ st.written, ∃ M0, RewrittenFrom cfg load M M0 := by
    intro M hM
    obtain ⟨p, M0, horigin, hMeq⟩ := hnew M (hw1 ▸ hM)
    exact ⟨M0, hMeq ▸ rewrittenFrom_rewriteAll cfg load hwf hhyg p M0 horigin⟩
  obtain ⟨origins, horigins⟩ := exists_related (RewrittenFrom cfg load) st.written hall
  have hc1 : st.codeOut = writeAll ⟨"", []⟩ st.written := by rw [hc, hw1]
  exact ⟨st, origins, hrun,
    by rw [hc1]; exact writeAll_eq_emitAll cfg load _ _ horigins _, hc1, horigins⟩

theorem namesOf_clean (l : List (Ident × String)) (h : ∀ x ∈ l, '@' ∉ x.2.data) (j : Ident) :
    '@' ∉ (namesOf l j).data := by
  induction l with
  | nil => simp [namesOf]
  | cons x rest ih =>
    obtain ⟨k, v⟩ := x
    by_cases hj : j = k
    · simp only [namesOf, hj, if_true]
      exact h (k, v) (List.mem_cons_self _ _)
    · simp only [namesOf, hj, if_false]
      exact ih (fun x hx => h x (List.mem_cons_of_mem _ hx))

theorem diamond_hygienic : ∀ p L, (diamondLoad p).pkgs.head? = some L → Hygienic L := by
  intro p L h
  unfold diamondLoad at h
  split_ifs at h with h1 h2 h3 h4 <;> simp at h <;> subst h
  · exact ⟨by decide, namesOf_clean _ (by decide), by decide, by decide, by decide⟩
  · exact ⟨by decide, namesOf_clean _ (by decide), by decide, by decide, by decide⟩
  · exact ⟨by decide, namesOf_clean _ (by decide), by decide, by decide, by decide⟩
  · exact ⟨by decide, namesOf_clean _ (by decide), by decide, by decide, by decide⟩

/-- C2 (witness): the diamond. -/
theorem references_rewritten_witness :
    ∃ st origins,
      traverseDependencyTree exampleCfg diamondLoad 3 "github.com/acme/app" = .ok st ∧
      st.codeOut = emitAllInlined exampleCfg diamondLoad ⟨"", []⟩ origins ∧
      st.codeOut = writeAll ⟨"", []⟩ st.written ∧
      List.Forall₂ (RewrittenFrom exampleCfg diamondLoad) st.written origins :=
  references_rewritten exampleCfg diamondLoad diamondRank diamond_acyclic
    "github.com/acme/app" pkgRoot rfl 3 (by decide) diamond_syntaxWF diamond_hygienic

/-- The expected emission of the root of the diamond, as loaded: both
references to inlined modules stand unqualified under their new names. -/
theorem emitInlined_root :
    (emitInlined exampleCfg diamondLoad pkgRoot ⟨"", []⟩).text =
      "func main() \x7b b_B(); c_C() \x7d\n\n" := by
  decide

/-! ## Further checks on concrete inputs -/

/-- C4 (witness): in `pkgEmbed`, renamed with the prefix `e_` for the symbols
`S`, `T` and the embedded field, the identifier of the embedded field, a key
of both maps, is named `e_S`. -/
theorem renamePackageDeclarations_total_witness :
    (renamePackageDeclarations pkgEmbed [objS, objT, objFieldS] "e_").names 2 =
      "e_" ++ objFieldS.name :=
  (renamePackageDeclarations_total pkgEmbed [objS, objT, objFieldS] "e_"
    (by decide) (by decide)
    (by
      intro id o1 o2 h1 h2 _ _
      simp only [pkgEmbed, List.mem_singleton, Prod.mk.injEq] at h2
      obtain ⟨rfl, rfl⟩ := h2
      simp [pkgEmbed, objS, objT, objFieldS] at h1
      rw [h1]
      rfl)).1 2 objFieldS (by decide) (by decide)

/-- The collision set of `pkgEmbed` holds the two types of the scope and the
embedded field that uses the type `S`. -/
theorem getObjectsToUpdate_pkgEmbed :
    (match getObjectsToUpdate pkgEmbed with
      | .ok objs => some objs
      | .error _ => none) = some [objT, objFieldS, objS] := by
  decide

/-- Two declarations on one line followed by a comment: the comment group
after `func b` is written by the same-line pass of `func a` and again by the
same-line pass of `func b`. -/
theorem writeFile_same_line_comment_twice :
    List.count (⟨35, 42, ["/* c */"]⟩ : CommentGroup)
      (writeFile (namesOf [])
        { package := 1, imports := []
          decls := [.funcDecl none 10 21 (.lit "func a()"), .funcDecl none 23 34 (.lit "func b()")]
          comments := [⟨35, 42, ["/* c */"]⟩]
          line := fun p => p / 100 } ⟨"", []⟩).log = 2 := by
  decide

end Gobundler
